import Mathlib

/-!
# `v2axy_` (NL2SOL, f2c translation): `W = A*X + Y`

A shallow embedding of `src/Kernel/libAMIGO/src/src_nl2sol/v2axy.c`.

* Storage is a typed heap: `integer` objects and `real` objects live in two maps
  from cell addresses (counted in elements) to values.  Pointers are cell addresses;
  all five arguments of `v2axy_` are pointers, the length `p` and the scalar `a`
  included, and `*a` is read anew on every trip around the loop.
* The header `f2c.h` is not part of the sources, so the two types it declares are
  parameters of the embedding.  `integer` is a two's-complement integer of `bits`
  bits; the overflow of `++i__`, undefined in C, is modelled as wrapping modulo
  `2 ^ bits`.  `real` is any type `R` with a multiplication and an addition, each
  expression `*a * x[i__] + y[i__]` being one multiplication followed by one
  addition in `R`.  `F32` below is the IEEE-754 binary32 instance used where a claim
  depends on the arithmetic itself.
* The loop is run with fuel; `none` means that the fuel ran out before the loop
  condition became false.
-/

namespace V2axy

/-! ## Machine integers -/

/-- Largest value of a two's-complement `integer` of `bits` bits. -/
def integerMax (bits : Nat) : Int := 2 ^ (bits - 1) - 1

/-- Smallest value of a two's-complement `integer` of `bits` bits. -/
def integerMin (bits : Nat) : Int := -(2 ^ (bits - 1))

/-- Reduction of a mathematical integer into the range of `integer` (modulo `2 ^ bits`). -/
def wrapInteger (bits : Nat) (v : Int) : Int :=
  (v + 2 ^ (bits - 1)) % 2 ^ bits - 2 ^ (bits - 1)

/-! ## Program state -/

/-- Program state: the `integer` heap, the `real` heap, the function's
`static integer i__`, and a ghost log of the `real` cells written so far
(oldest first). -/
structure State (R : Type) where
  ints : Int → Int
  reals : Int → R
  i__ : Int
  log : List Int

/-- Assignment to one cell of a heap. -/
def store {R : Type} (m : Int → R) (k : Int) (v : R) : Int → R :=
  fun j => if j = k then v else m j

/-- Loop body `w[i__] = *a * x[i__] + y[i__];` (the pointers are the decremented ones). -/
def loopBody {R : Type} [Mul R] [Add R] (w a x y : Int) (s : State R) : State R :=
  { s with
    reals := store s.reals (w + s.i__) (s.reals a * s.reals (x + s.i__) + s.reals (y + s.i__))
    log := s.log ++ [w + s.i__] }

/-- One trip around `for (...; i__ <= i__1; ++i__)`: test, body, increment.
`none` when the test fails (the loop is left). -/
def loopStep {R : Type} [Mul R] [Add R] (bits : Nat) (i__1 w a x y : Int) (s : State R) :
    Option (State R) :=
  if s.i__ ≤ i__1 then
    let s1 := loopBody w a x y s
    some { s1 with i__ := wrapInteger bits (s1.i__ + 1) }
  else none

/-- The loop, run for at most `fuel` tests of its condition: `some s` is the state in
which the loop is left, `none` says the loop was still running when the fuel ran out. -/
def loop {R : Type} [Mul R] [Add R] (bits : Nat) (i__1 w a x y : Int) :
    Nat → State R → Option (State R)
  | 0, _ => none
  | fuel + 1, s =>
    match loopStep bits i__1 w a x y s with
    | some s1 => loop bits i__1 w a x y fuel s1
    | none => some s

/-- The state after at most `n` trips around the loop (whether or not it has been left). -/
def loopAfter {R : Type} [Mul R] [Add R] (bits : Nat) (i__1 w a x y : Int) :
    Nat → State R → State R
  | 0, s => s
  | n + 1, s =>
    match loopStep bits i__1 w a x y s with
    | some s1 => loopAfter bits i__1 w a x y n s1
    | none => s

/-- The state in which the loop is entered: `i__ = 1`. -/
def enter {R : Type} (s : State R) : State R := { s with i__ := 1 }

/-- The subroutine `v2axy_(p, w, a, x, y)`: parameter adjustments `--y; --x; --w;`,
`i__1 = *p`, the loop, `return 0`.  The result is the returned `int` and the final
state. -/
def v2axy_ {R : Type} [Mul R] [Add R] (bits fuel : Nat) (p w a x y : Int) (s : State R) :
    Option (Int × State R) :=
  let y := y - 1
  let x := x - 1
  let w := w - 1
  let i__1 := s.ints p
  match loop bits i__1 w a x y fuel (enter s) with
  | some s1 => some (0, s1)
  | none => none

/-- The state reached inside `v2axy_` after at most `n` trips around its loop. -/
def v2axy_after {R : Type} [Mul R] [Add R] (bits n : Nat) (p w a x y : Int) (s : State R) :
    State R :=
  loopAfter bits (s.ints p) (w - 1) a (x - 1) (y - 1) n (enter s)

/-- The spec's algorithm, in its words: a single forward pass over the zero-based
indices `k, k+1, ..., k+n-1`, computing `a*x[i]+y[i]` and storing it into `w[i]`. -/
def forwardPass {R : Type} [Mul R] [Add R] (w a x y : Int) : Nat → Int → (Int → R) → (Int → R)
  | 0, _, m => m
  | n + 1, k, m => forwardPass w a x y n (k + 1) (store m (w + k) (m a * m (x + k) + m (y + k)))

/-- The zero-based formulation of the whole operation on the `real` heap. -/
def axpyZeroBased {R : Type} [Mul R] [Add R] (p : Nat) (w a x y : Int) (m : Int → R) : Int → R :=
  forwardPass w a x y p 0 m

/-- Cells of the zero-based indices `0 .. n-1` of the vector at `w`, in ascending order. -/
def cellsAscending (w : Int) (n : Nat) : List Int :=
  (List.range n).map (fun (k : Nat) => w + (k : Int))


/-! ## The `real` type: IEEE-754 binary32 -/

/-- Modelled from the spec: the `real` type declared in `f2c.h`, which is not part of
the sources.  The spec calls it the single project-wide floating-point type whose
values are finite or non-finite and propagate per IEEE-754 through multiply and add;
f2c's `real` is C `float`, so this is binary32 with round-to-nearest-even.
`fin neg e m` is the finite value with sign bit `neg`, biased exponent field `e`
(`0` for zeros and subnormals, `1 .. 254` for normals) and fraction field `m`;
all NaNs are identified. -/
inductive F32 where
  | nan : F32
  | inf (neg : Bool) : F32
  | fin (neg : Bool) (e : Fin 255) (m : Fin 8388608) : F32
  deriving DecidableEq

/-- Integer significand of a finite binary32: the value is
`sig e m * 2 ^ expo e * 2 ^ (-149)`. -/
def sig (e : Fin 255) (m : Fin 8388608) : Nat :=
  if e.val = 0 then m.val else 8388608 + m.val

/-- Exponent of the unit in the last place of a finite binary32, counted from `-149`. -/
def expo (e : Fin 255) : Nat := e.val - 1

/-- Number of binary digits of `n` (for `n < 2 ^ fuel`). -/
def bitLen : Nat → Nat → Nat
  | 0, _ => 0
  | fuel + 1, n => if n = 0 then 0 else bitLen fuel (n / 2) + 1

/-- Rounding to nearest, ties to even, of the exact value `n * 2 ^ (-(149 + k))` with
sign `neg`, given the number `sh` of low bits of `n` that do not fit: the kept bits are
`n / 2 ^ sh`, the dropped ones `n % 2 ^ sh` decide the direction, a carry out of the 24
significand bits moves the exponent up, and an exponent beyond the largest finite one
gives an infinity. -/
def roundAt (neg : Bool) (n k sh : Nat) : F32 :=
  let q := n / 2 ^ sh
  let r := n % 2 ^ sh
  let q1 := if 2 ^ sh < 2 * r ∨ (2 * r = 2 ^ sh ∧ q % 2 = 1) then q + 1 else q
  let q2 := if q1 = 16777216 then 8388608 else q1
  let e2 := if q1 = 16777216 then sh - k + 1 else sh - k
  if q2 < 8388608 then F32.fin neg ⟨0, by decide⟩ ⟨q2 % 8388608, Nat.mod_lt _ (by decide)⟩
  else if 254 ≤ e2 then F32.inf neg
  else F32.fin neg ⟨(e2 + 1) % 255, Nat.mod_lt _ (by decide)⟩
      ⟨(q2 - 8388608) % 8388608, Nat.mod_lt _ (by decide)⟩

/-- Rounding to nearest, ties to even, of the exact value `n * 2 ^ (-(149 + k))` with
sign `neg` to binary32: at most 24 significant bits are kept, and no bit below
`2 ^ (-149)`. -/
def roundPack (neg : Bool) (n k : Nat) : F32 :=
  roundAt neg n k (max k (bitLen 1024 n - 24))

/-- IEEE-754 multiplication of binary32 values (round to nearest even). -/
def F32.mul : F32 → F32 → F32
  | .nan, _ => .nan
  | _, .nan => .nan
  | .inf s, .inf t => .inf (xor s t)
  | .inf s, .fin t e m => if sig e m = 0 then .nan else .inf (xor s t)
  | .fin s e m, .inf t => if sig e m = 0 then .nan else .inf (xor s t)
  | .fin s1 e1 m1, .fin s2 e2 m2 =>
    roundPack (xor s1 s2) (sig e1 m1 * sig e2 m2 * 2 ^ (expo e1 + expo e2)) 149

/-- IEEE-754 addition of binary32 values (round to nearest even). -/
def F32.add : F32 → F32 → F32
  | .nan, _ => .nan
  | _, .nan => .nan
  | .inf s, .inf t => if s = t then .inf s else .nan
  | .inf s, .fin _ _ _ => .inf s
  | .fin _ _ _, .inf t => .inf t
  | .fin s1 e1 m1, .fin s2 e2 m2 =>
    let a := sig e1 m1 * 2 ^ expo e1
    let b := sig e2 m2 * 2 ^ expo e2
    if s1 = s2 then roundPack s1 (a + b) 0
    else if a = b then .fin false 0 0
    else if b < a then roundPack s1 (a - b) 0
    else roundPack s2 (b - a) 0

instance : Mul F32 := ⟨F32.mul⟩

instance : Add F32 := ⟨F32.add⟩

/-- The binary32 nearest to the natural number `n`. -/
def F32.ofNat (n : Nat) : F32 := roundPack false (n * 2 ^ 149) 0

/-- Neither a NaN nor an infinity. -/
def F32.isFinite : F32 → Bool
  | .fin _ _ _ => true
  | _ => false

/-- Positive zero. -/
def F32.zero : F32 := .fin false 0 0

/-- Negative zero. -/
def F32.negZero : F32 := .fin true 0 0

/-- The value `1.0f`. -/
def F32.one : F32 := .fin false 127 0

/-! ## Concrete states used in the examples -/

/-- Heap holding `+0` in every cell. -/
def zeroReals : Int → F32 := fun _ => F32.zero

/-- State whose `integer` heap holds `n` everywhere and whose `real` heap is `m`. -/
def mkState {R : Type} (n : Int) (m : Int → R) : State R :=
  { ints := fun _ => n, reals := m, i__ := 0, log := [] }

/-- Heap holding the values of `l` in the cells `base, base+1, ...` and `d` elsewhere. -/
def heapOf {R : Type} (d : R) (base : Int) (l : List R) : Int → R :=
  fun j => if base ≤ j then (l.getD (j - base).toNat d) else d

/-- Example `real` heap: the scalar `2.0` in cell `100`, the vector `[1, 2, 3]` in the
cells `10 .. 12`, the vector `[10, 20, 30]` in the cells `20 .. 22`, `+0` elsewhere. -/
def exampleReals : Int → F32 := fun j =>
  if j = 100 then F32.ofNat 2
  else if 20 ≤ j then heapOf F32.zero 20 [F32.ofNat 10, F32.ofNat 20, F32.ofNat 30] j
  else heapOf F32.zero 10 [F32.ofNat 1, F32.ofNat 2, F32.ofNat 3] j

/-- Example state: length `3` and the heap `exampleReals`. -/
def exampleState : State F32 := mkState 3 exampleReals

/-- State whose length is the largest 32-bit `integer`, `2147483647`. -/
def overflowState : State F32 := mkState (integerMax 32) zeroReals

/-- Heap with `+0` in cell `100`, `+infinity` in cell `10`, `1.0` in cell `20`. -/
def infReals : Int → F32 := fun j =>
  if j = 10 then F32.inf false else if j = 20 then F32.one else F32.zero

/-- Heap with the value `v` in cell `c`, `1.0` in the cells `c1`, `c2` and `c3`, and `+0`
elsewhere. -/
def heapWith (c : Int) (v : F32) (c1 c2 c3 : Int) : Int → F32 := fun j =>
  if j = c then v else if j = c1 ∨ j = c2 ∨ j = c3 then F32.one else F32.zero

/-- Heap with `2.0` in cell `0`, the vector `[1, 1]` in the cells `10, 11` and the vector
`[1, 0]` in the cells `20, 21`. -/
def aliasReals : Int → F32 := heapWith 0 (F32.ofNat 2) 10 11 20

/-- Heap with the vector `[2, 1]` in the cells `10, 11` and the vector `[1, 0]` in the
cells `20, 21`. -/
def inPlaceXReals : Int → F32 := heapWith 10 (F32.ofNat 2) 11 20 20

/-- Heap with the vector `[1, 1]` in the cells `10, 11` and the vector `[2, 0]` in the
cells `20, 21`. -/
def inPlaceYReals : Int → F32 := heapWith 20 (F32.ofNat 2) 10 11 11

/-- Heap with `1.0` in cell `0`, the vector `[1, 1]` in the cells `10, 11` and the vector
`[1, 0]` in the cells `20, 21`. -/
def unitAliasReals : Int → F32 := heapWith 0 F32.one 10 11 20

/-- Heap holding `1.0` in every cell. -/
def oneReals : Int → F32 := fun _ => F32.one

/-- Heap with `2.0` in cell `100`, `1.0` in the cells `10`, `11` and `20`, `+0` elsewhere:
the vector `[1, 1]` at `10`, the vector `[1, 0]` at `20`, and a `w` at `11` whose
element `w[i]` is the cell of `x[i+1]`. -/
def shiftReals : Int → F32 := heapWith 100 (F32.ofNat 2) 10 11 20

/-- Heap that agrees with `exampleReals` on the scalar in cell `100`, on `x` (cells
`10 .. 12`) and on `y` (cells `20 .. 22`), and holds `1.0` in every other cell. -/
def otherReals : Int → F32 := fun j =>
  if j = 100 ∨ (10 ≤ j ∧ j ≤ 12) ∨ (20 ≤ j ∧ j ≤ 22) then exampleReals j else F32.one

/-- State with length `3`, the heap `otherReals`, and other values of `i__` and of the
write log than `exampleState`. -/
def otherState : State F32 := { ints := fun _ => 3, reals := otherReals, i__ := 7, log := [5] }

/-! ## Formulations the claims compare the source with -/

/-- The loop body `w[i] = a*x[i] + y[i]` run over the zero-based indices of a list, in
the order of the list. -/
def passInOrder {R : Type} [Mul R] [Add R] (w a x y : Int) : List Int → (Int → R) → (Int → R)
  | [], m => m
  | i :: r, m => passInOrder w a x y r (store m (w + i) (m a * m (x + i) + m (y + i)))

/-- The zero-based indices `0, 1, ..., n-1`, in ascending order. -/
def indexList (n : Nat) : List Int := (List.range n).map (fun (k : Nat) => (k : Int))

/-- The loop of `v2axy_` with an ordinary local counter `i` in place of the static
`i__`: the same test, body and increment, on the `real` heap alone. -/
def loopLocal {R : Type} [Mul R] [Add R] (bits : Nat) (i__1 w a x y : Int) :
    Nat → Int → (Int → R) → Option (Int → R)
  | 0, _, _ => none
  | fuel + 1, i, m =>
    if i ≤ i__1 then
      loopLocal bits i__1 w a x y fuel (wrapInteger bits (i + 1))
        (store m (w + i) (m a * m (x + i) + m (y + i)))
    else some m

/-- The subroutine with an ordinary local counter: returned `int` and final `real`
heap. -/
def v2axy_local {R : Type} [Mul R] [Add R] (bits fuel : Nat) (p w a x y : Int)
    (ints : Int → Int) (reals : Int → R) : Option (Int × (Int → R)) :=
  match loopLocal bits (ints p) (w - 1) a (x - 1) (y - 1) fuel 1 reals with
  | some m => some (0, m)
  | none => none

/-- The `real` cells read during at most `n` trips around the loop, oldest first: each
execution of the body reads `*a`, `x[i__]` and `y[i__]`. -/
def loopReads {R : Type} [Mul R] [Add R] (bits : Nat) (i__1 w a x y : Int) :
    Nat → State R → List Int
  | 0, _ => []
  | n + 1, s =>
    match loopStep bits i__1 w a x y s with
    | some s1 => [a, x + s.i__, y + s.i__] ++ loopReads bits i__1 w a x y n s1
    | none => []

/-- The `real` cells read by `v2axy_` during at most `n` trips around its loop. -/
def v2axy_reads {R : Type} [Mul R] [Add R] (bits n : Nat) (p w a x y : Int) (s : State R) :
    List Int :=
  loopReads bits (s.ints p) (w - 1) a (x - 1) (y - 1) n (enter s)

/-- One trip around the loop where the increment `++i__` leaves the value `next i__` in
the counter: the same test and body as `loopStep`, which is the case
`next v = wrapInteger bits (v + 1)`. -/
def loopStepWith {R : Type} [Mul R] [Add R] (next : Int → Int) (i__1 w a x y : Int)
    (s : State R) : Option (State R) :=
  if s.i__ ≤ i__1 then
    let s1 := loopBody w a x y s
    some { s1 with i__ := next s1.i__ }
  else none

/-- The loop with the increment `next`, run for at most `fuel` tests of its condition. -/
def loopWith {R : Type} [Mul R] [Add R] (next : Int → Int) (i__1 w a x y : Int) :
    Nat → State R → Option (State R)
  | 0, _ => none
  | fuel + 1, s =>
    match loopStepWith next i__1 w a x y s with
    | some s1 => loopWith next i__1 w a x y fuel s1
    | none => some s

/-- The subroutine with the increment `next`: parameter adjustments, `i__1 = *p`, the
loop, `return 0`. -/
def v2axy_with {R : Type} [Mul R] [Add R] (next : Int → Int) (fuel : Nat) (p w a x y : Int)
    (s : State R) : Option (Int × State R) :=
  match loopWith next (s.ints p) (w - 1) a (x - 1) (y - 1) fuel (enter s) with
  | some s1 => some (0, s1)
  | none => none

/-! ## Machine integers: lemmas -/

theorem two_pow_bits_le (bits : Nat) : (2 : Int) ^ bits ≤ 2 * 2 ^ (bits - 1) := by
  cases bits with
  | zero => norm_num
  | succ n => simp [pow_succ, mul_comm]

theorem wrapInteger_le_max (bits : Nat) (v : Int) : wrapInteger bits v ≤ integerMax bits := by
  unfold wrapInteger integerMax
  have hpos : (0 : Int) < 2 ^ bits := by positivity
  have h1 : (v + 2 ^ (bits - 1)) % 2 ^ bits < 2 ^ bits := Int.emod_lt_of_pos _ hpos
  have h2 := two_pow_bits_le bits
  omega

theorem wrapInteger_id (bits : Nat) (v : Int) (h1 : 1 ≤ v) (h2 : v ≤ integerMax bits) :
    wrapInteger bits v = v := by
  unfold integerMax at h2
  unfold wrapInteger
  have hb : bits = (bits - 1) + 1 := by
    cases bits with
    | zero => simp at h2; omega
    | succ n => simp
  have hpow : (2 : Int) ^ bits = 2 * 2 ^ (bits - 1) := by
    conv_lhs => rw [hb]
    rw [pow_succ, mul_comm]
  have hH : (0 : Int) < 2 ^ (bits - 1) := by positivity
  rw [hpow, Int.emod_eq_of_lt (by omega) (by omega)]
  omega

theorem one_le_integerMax (bits : Nat) (hbits : 2 ≤ bits) : 1 ≤ integerMax bits := by
  unfold integerMax
  have h2 : (2 : Int) ^ 1 ≤ 2 ^ (bits - 1) :=
    pow_le_pow_right₀ (by norm_num) (by omega)
  norm_num at h2
  omega

/-- The increment of the largest `integer` wraps to the smallest. -/
theorem wrapInteger_max_succ (bits : Nat) (hbits : 1 ≤ bits) :
    wrapInteger bits (integerMax bits + 1) = integerMin bits := by
  unfold wrapInteger integerMax integerMin
  have hb : bits = (bits - 1) + 1 := by omega
  have hpow : (2 : Int) ^ bits = 2 * 2 ^ (bits - 1) := by
    conv_lhs => rw [hb]
    rw [pow_succ, mul_comm]
  have e : (2 : Int) ^ (bits - 1) - 1 + 1 + 2 ^ (bits - 1) = 2 ^ bits := by
    rw [hpow]
    ring
  rw [e, Int.emod_self]
  ring

theorem integerMin_le_max (bits : Nat) : integerMin bits ≤ integerMax bits := by
  unfold integerMin integerMax
  have hH : (0 : Int) < 2 ^ (bits - 1) := by positivity
  omega

/-! ## The loop -/

theorem store_same {R : Type} (m : Int → R) (k : Int) (v : R) : store m k v k = v := by
  simp [store]

theorem store_other {R : Type} (m : Int → R) (k c : Int) (v : R) (h : c ≠ k) :
    store m k v c = m c := by
  simp [store, h]

theorem loopStep_exit {R : Type} [Mul R] [Add R] (bits : Nat) (i__1 w a x y : Int)
    (s : State R) (h : i__1 < s.i__) : loopStep bits i__1 w a x y s = none := by
  simp [loopStep, not_le.mpr h]

theorem loop_exit {R : Type} [Mul R] [Add R] (bits : Nat) (i__1 w a x y : Int) (fuel : Nat)
    (s : State R) (h : i__1 < s.i__) : loop bits i__1 w a x y (fuel + 1) s = some s := by
  simp [loop, loopStep_exit bits i__1 w a x y s h]

/-- With `i__1` at least the largest `integer`, the loop condition never fails. -/
theorem loop_diverges {R : Type} [Mul R] [Add R] (bits : Nat) (i__1 w a x y : Int)
    (hmax : integerMax bits ≤ i__1) :
    ∀ (fuel : Nat) (s : State R), s.i__ ≤ integerMax bits →
      loop bits i__1 w a x y fuel s = none := by
  intro fuel
  induction fuel with
  | zero => intro s _; rfl
  | succ n ih =>
    intro s hs
    have hc : s.i__ ≤ i__1 := le_trans hs hmax
    simp only [loop, loopStep, hc, if_true]
    exact ih _ (wrapInteger_le_max bits _)

/-- Running the loop with `n` trips to go: it is left after exactly `n` trips, having
performed the forward pass over the indices `i__, ..., i__+n-1`. -/
theorem loop_run {R : Type} [Mul R] [Add R] (bits : Nat) (i__1 w a x y : Int)
    (hmax : i__1 < integerMax bits) :
    ∀ (n : Nat) (s : State R) (fuel : Nat), 1 ≤ s.i__ →
      s.i__ + n = i__1 + 1 → n < fuel →
      loop bits i__1 w a x y fuel s =
        some { ints := s.ints, reals := forwardPass w a x y n s.i__ s.reals,
               i__ := i__1 + 1,
               log := s.log ++ (List.range n).map (fun (j : Nat) => w + (s.i__ + (j : Int))) } := by
  intro n
  induction n with
  | zero =>
    intro s fuel _ hn hf
    obtain ⟨f, rfl⟩ : ∃ f, fuel = f + 1 := ⟨fuel - 1, by omega⟩
    have hlt : i__1 < s.i__ := by simp at hn; omega
    rw [loop_exit bits i__1 w a x y f s hlt]
    cases s
    simp [forwardPass] at *
    omega
  | succ n ih =>
    intro s fuel h1 hn hf
    obtain ⟨f, rfl⟩ : ∃ f, fuel = f + 1 := ⟨fuel - 1, by omega⟩
    have hc : s.i__ ≤ i__1 := by push_cast at hn; omega
    have hw : wrapInteger bits (s.i__ + 1) = s.i__ + 1 :=
      wrapInteger_id bits (s.i__ + 1) (by omega) (by push_cast at hn; omega)
    simp only [loop, loopStep, hc, if_true, loopBody, hw]
    rw [ih _ f (show (1 : Int) ≤ s.i__ + 1 by omega)
      (show s.i__ + 1 + (n : Int) = i__1 + 1 by push_cast at hn; omega) (by omega)]
    simp only [forwardPass, List.range_succ_eq_map, List.map_cons, List.map_map,
      List.append_assoc, List.singleton_append]
    congr 2
    simp
    intro j _
    ring

/-- With `n` trips to go and no more than `n` tests of the condition allowed, the loop
is still running when the fuel runs out. -/
theorem loop_out_of_fuel {R : Type} [Mul R] [Add R] (bits : Nat) (i__1 w a x y : Int)
    (hmax : i__1 < integerMax bits) :
    ∀ (fuel n : Nat) (s : State R), 1 ≤ s.i__ → s.i__ + n = i__1 + 1 → fuel ≤ n →
      loop bits i__1 w a x y fuel s = none := by
  intro fuel
  induction fuel with
  | zero => intro n s _ _ _; rfl
  | succ f ih =>
    intro n s h1 hn hf
    obtain ⟨n1, rfl⟩ : ∃ n1, n = n1 + 1 := ⟨n - 1, by omega⟩
    have hc : s.i__ ≤ i__1 := by push_cast at hn; omega
    have hw : wrapInteger bits (s.i__ + 1) = s.i__ + 1 :=
      wrapInteger_id bits (s.i__ + 1) (by omega) (by push_cast at hn; omega)
    simp only [loop, loopStep, hc, if_true, loopBody, hw]
    exact ih n1 _ (show (1 : Int) ≤ s.i__ + 1 by omega)
      (show s.i__ + 1 + (n1 : Int) = i__1 + 1 by push_cast at hn; omega) (by omega)

/-- The one-based pass through the decremented pointers is the zero-based pass. -/
theorem forwardPass_shift {R : Type} [Mul R] [Add R] (w a x y : Int) :
    ∀ (n : Nat) (k : Int) (m : Int → R),
      forwardPass (w - 1) a (x - 1) (y - 1) n (k + 1) m = forwardPass w a x y n k m := by
  intro n
  induction n with
  | zero => intro k m; rfl
  | succ n ih =>
    intro k m
    simp only [forwardPass]
    rw [ih (k + 1)]
    have e1 : w - 1 + (k + 1) = w + k := by ring
    have e2 : x - 1 + (k + 1) = x + k := by ring
    have e3 : y - 1 + (k + 1) = y + k := by ring
    rw [e1, e2, e3]

/-- A cell that is none of `w[k], ..., w[k+n-1]` is not changed by the forward pass. -/
theorem forwardPass_outside {R : Type} [Mul R] [Add R] (w a x y : Int) :
    ∀ (n : Nat) (k : Int) (m : Int → R) (c : Int),
      (∀ j : Int, k ≤ j → j < k + n → c ≠ w + j) →
      forwardPass w a x y n k m c = m c := by
  intro n
  induction n with
  | zero => intro k m c _; rfl
  | succ n ih =>
    intro k m c h
    simp only [forwardPass]
    rw [ih (k + 1) _ c (fun j hj1 hj2 => h j (by omega) (by push_cast; omega))]
    exact store_other _ _ _ _ (h k (le_refl k) (by push_cast; omega))

/-- When no trip reads a cell that an earlier trip wrote, the forward pass leaves
`a*x[i] + y[i]`, computed from the initial heap, in every `w[i]` it visits. -/
theorem forwardPass_elem {R : Type} [Mul R] [Add R] (w a x y : Int) :
    ∀ (n : Nat) (k : Int) (m : Int → R),
      (∀ i j : Int, k ≤ j → j < i → i < k + n →
        w + j ≠ a ∧ w + j ≠ x + i ∧ w + j ≠ y + i) →
      ∀ i : Int, k ≤ i → i < k + n →
        forwardPass w a x y n k m (w + i) = m a * m (x + i) + m (y + i) := by
  intro n
  induction n with
  | zero => intro k m _ i h1 h2; simp at h2; omega
  | succ n ih =>
    intro k m hz i h1 h2
    simp only [forwardPass]
    by_cases hik : i = k
    · subst hik
      rw [forwardPass_outside w a x y n (i + 1) _ (w + i) (fun j hj1 _ => by omega)]
      exact store_same _ _ _
    · have hki : k < i := by omega
      rw [ih (k + 1) _ (fun i2 j hj1 hj2 hi2 => hz i2 j (by omega) hj2 (by push_cast; omega))
        i (by omega) (by push_cast at h2; omega)]
      have h3 := hz i k (le_refl k) hki h2
      rw [store_other _ _ _ _ (Ne.symm h3.1), store_other _ _ _ _ (Ne.symm h3.2.1),
        store_other _ _ _ _ (Ne.symm h3.2.2)]


theorem loopAfter_frame {R : Type} [Mul R] [Add R] (bits : Nat) (i__1 w a x y c : Int)
    (hc : ∀ k : Int, k ≤ i__1 → c ≠ w + k) :
    ∀ (n : Nat) (s : State R),
      (loopAfter bits i__1 w a x y n s).reals c = s.reals c := by
  intro n
  induction n with
  | zero => intro s; rfl
  | succ n ih =>
    intro s
    by_cases h : s.i__ ≤ i__1
    · simp only [loopAfter, loopStep, h, if_true]
      rw [ih]
      exact store_other _ _ _ _ (hc _ h)
    · simp [loopAfter, loopStep, h]

theorem loopAfter_ints {R : Type} [Mul R] [Add R] (bits : Nat) (i__1 w a x y : Int) :
    ∀ (n : Nat) (s : State R), (loopAfter bits i__1 w a x y n s).ints = s.ints := by
  intro n
  induction n with
  | zero => intro s; rfl
  | succ n ih =>
    intro s
    by_cases h : s.i__ ≤ i__1
    · simp only [loopAfter, loopStep, h, if_true]
      rw [ih]
      rfl
    · simp [loopAfter, loopStep, h]

theorem loopAfter_exit {R : Type} [Mul R] [Add R] (bits : Nat) (i__1 w a x y : Int)
    (n : Nat) (s : State R) (h : loopStep bits i__1 w a x y s = none) :
    loopAfter bits i__1 w a x y n s = s := by
  cases n with
  | zero => rfl
  | succ n => simp [loopAfter, h]

theorem loopAfter_add {R : Type} [Mul R] [Add R] (bits : Nat) (i__1 w a x y : Int) (m : Nat) :
    ∀ (n : Nat) (s : State R),
      loopAfter bits i__1 w a x y (n + m) s
        = loopAfter bits i__1 w a x y m (loopAfter bits i__1 w a x y n s) := by
  intro n
  induction n with
  | zero => intro s; simp [loopAfter]
  | succ n ih =>
    intro s
    have e : n + 1 + m = (n + m) + 1 := by omega
    rw [e]
    cases h : loopStep bits i__1 w a x y s with
    | none => simp only [loopAfter, h]; exact (loopAfter_exit bits i__1 w a x y m s h).symm
    | some s1 => simp only [loopAfter, h]; exact ih s1

/-- The state after `n` trips, as long as the counter neither passes `i__1 + 1` nor the
largest `integer`. -/
theorem loopAfter_run {R : Type} [Mul R] [Add R] (bits : Nat) (i__1 w a x y : Int) :
    ∀ (n : Nat) (s : State R), 1 ≤ s.i__ → s.i__ + n ≤ i__1 + 1 →
      s.i__ + n ≤ integerMax bits →
      loopAfter bits i__1 w a x y n s =
        { ints := s.ints, reals := forwardPass w a x y n s.i__ s.reals,
          i__ := s.i__ + n,
          log := s.log ++ (List.range n).map (fun (j : Nat) => w + (s.i__ + (j : Int))) } := by
  intro n
  induction n with
  | zero =>
    intro s _ _ _
    cases s
    simp [loopAfter, forwardPass]
  | succ n ih =>
    intro s h1 hn hm
    have hc : s.i__ ≤ i__1 := by push_cast at hn; omega
    have hw : wrapInteger bits (s.i__ + 1) = s.i__ + 1 :=
      wrapInteger_id bits (s.i__ + 1) (by omega) (by push_cast at hm; omega)
    simp only [loopAfter, loopStep, hc, if_true, loopBody, hw]
    rw [ih _ (show (1 : Int) ≤ s.i__ + 1 by omega)
      (show s.i__ + 1 + (n : Int) ≤ i__1 + 1 by push_cast at hn; omega)
      (show s.i__ + 1 + (n : Int) ≤ integerMax bits by push_cast at hm; omega)]
    simp only [forwardPass, List.range_succ_eq_map, List.map_cons, List.map_map,
      List.append_assoc, List.singleton_append]
    congr 1
    · push_cast
      ring
    · simp
      intro j _
      ring

/-- Two further trips from a state whose counter passes the test twice. -/
theorem loopAfter_two_more {R : Type} [Mul R] [Add R] (bits : Nat) (i__1 w a x y : Int)
    (s : State R) (c1 : Int) (h1 : s.i__ ≤ i__1)
    (hw1 : wrapInteger bits (s.i__ + 1) = c1) (h2 : c1 ≤ i__1) :
    (loopAfter bits i__1 w a x y 2 s).log = (s.log ++ [w + s.i__]) ++ [w + c1] := by
  simp only [loopAfter, loopStep, loopBody, h1, if_true, hw1, h2]

/-- With `i__1` the largest `integer` and the loop entered at `i__ = 1`: after
`i__1 + 1` trips there have been `i__1 + 1` writes, and the last one went to the cell
`w[integerMin]` of the decremented pointer. -/
theorem loopAfter_past_integerMax {R : Type} [Mul R] [Add R] (bits : Nat) (w a x y : Int)
    (s : State R) (hbits : 2 ≤ bits) (hs : s.i__ = 1) :
    (loopAfter bits (integerMax bits) w a x y (((integerMax bits).toNat - 1) + 2) s).log.length
      = s.log.length + ((integerMax bits).toNat + 1) ∧
    (loopAfter bits (integerMax bits) w a x y (((integerMax bits).toNat - 1) + 2) s).log.getLast?
      = some (w + integerMin bits) := by
  have hmax1 := one_le_integerMax bits hbits
  have hA := loopAfter_run bits (integerMax bits) w a x y ((integerMax bits).toNat - 1) s
    (by omega) (by omega) (by omega)
  have hi : s.i__ + (((integerMax bits).toNat - 1 : Nat) : Int) = integerMax bits := by omega
  rw [loopAfter_add, hA]
  rw [loopAfter_two_more bits (integerMax bits) w a x y _ (integerMin bits)
    (by simp only [hi]; exact le_refl _)
    (by simp only [hi]; exact wrapInteger_max_succ bits (by omega))
    (integerMin_le_max bits)]
  constructor
  · simp only [List.length_append, List.length_map, List.length_range,
      List.length_singleton]
    omega
  · simp

/-- A state in which the loop is left is the state after that many trips. -/
theorem loop_eq_loopAfter {R : Type} [Mul R] [Add R] (bits : Nat) (i__1 w a x y : Int) :
    ∀ (fuel : Nat) (s s1 : State R), loop bits i__1 w a x y fuel s = some s1 →
      s1 = loopAfter bits i__1 w a x y fuel s := by
  intro fuel
  induction fuel with
  | zero => intro s s1 h; simp [loop] at h
  | succ n ih =>
    intro s s1 h
    by_cases hc : s.i__ ≤ i__1
    · simp only [loop, loopStep, hc, if_true] at h
      simp only [loopAfter, loopStep, hc, if_true]
      exact ih _ _ h
    · simp only [loop, loopStep, hc, if_false] at h
      simp only [loopAfter, loopStep, hc, if_false]
      exact (Option.some.inj h).symm

/-! ## The subroutine -/

theorem v2axy_eq_some {R : Type} [Mul R] [Add R] (bits fuel : Nat) (p w a x y : Int)
    (s s1 : State R)
    (h : loop bits (s.ints p) (w - 1) a (x - 1) (y - 1) fuel (enter s) = some s1) :
    v2axy_ bits fuel p w a x y s = some (0, s1) := by
  simp [v2axy_, h]

theorem v2axy_eq_none {R : Type} [Mul R] [Add R] (bits fuel : Nat) (p w a x y : Int)
    (s : State R)
    (h : loop bits (s.ints p) (w - 1) a (x - 1) (y - 1) fuel (enter s) = none) :
    v2axy_ bits fuel p w a x y s = none := by
  simp [v2axy_, h]

theorem v2axy_some_inv {R : Type} [Mul R] [Add R] (bits fuel : Nat) (p w a x y : Int)
    (s : State R) (r : Int × State R) (h : v2axy_ bits fuel p w a x y s = some r) :
    r.1 = 0 ∧ loop bits (s.ints p) (w - 1) a (x - 1) (y - 1) fuel (enter s) = some r.2 := by
  unfold v2axy_ at h
  cases hl : loop bits (s.ints p) (w - 1) a (x - 1) (y - 1) fuel (enter s) with
  | none => simp [hl] at h
  | some s1 =>
    simp only [hl] at h
    cases Option.some.inj h
    exact ⟨rfl, rfl⟩

/-- With the length at the largest `integer` (or beyond), no amount of fuel lets the
call return. -/
theorem v2axy_never_returns {R : Type} [Mul R] [Add R] (bits : Nat) (p w a x y : Int)
    (s : State R) (hbits : 2 ≤ bits) (hmax : integerMax bits ≤ s.ints p) (fuel : Nat) :
    v2axy_ bits fuel p w a x y s = none := by
  apply v2axy_eq_none
  apply loop_diverges bits _ _ _ _ _ hmax
  exact one_le_integerMax bits hbits

/-- The call as a whole, for every length below the largest `integer`: it returns `0`,
the `real` heap is the one the zero-based forward pass produces, and exactly the cells
`w[0], ..., w[p-1]` were written, in this order. -/
theorem v2axy_run {R : Type} [Mul R] [Add R] (bits fuel : Nat) (p w a x y : Int)
    (s : State R) (hmax : s.ints p < integerMax bits) (hf : (s.ints p).toNat < fuel) :
    v2axy_ bits fuel p w a x y s =
      some (0, { ints := s.ints,
                 reals := axpyZeroBased (s.ints p).toNat w a x y s.reals,
                 i__ := ((s.ints p).toNat : Int) + 1,
                 log := s.log ++ cellsAscending w (s.ints p).toNat }) := by
  apply v2axy_eq_some
  by_cases hp : s.ints p < 1
  · obtain ⟨f, rfl⟩ : ∃ f, fuel = f + 1 := ⟨fuel - 1, by omega⟩
    rw [loop_exit bits _ _ _ _ _ f (enter s) (by simpa [enter] using hp)]
    have h0 : (s.ints p).toNat = 0 := by omega
    simp [h0, enter, axpyZeroBased, forwardPass, cellsAscending]
  · rw [loop_run bits _ _ _ _ _ hmax (s.ints p).toNat (enter s) fuel (by simp [enter])
      (by simp only [enter]; omega) hf]
    have e : (enter s).i__ = 0 + 1 := by simp [enter]
    rw [e, forwardPass_shift]
    simp only [enter, axpyZeroBased, cellsAscending]
    have hl : (fun (j : Nat) => w - 1 + (0 + 1 + (j : Int))) = fun (k : Nat) => w + (k : Int) := by
      funext j
      ring
    have hi : s.ints p + 1 = ((s.ints p).toNat : Int) + 1 := by omega
    rw [hl, hi]

/-- For a length `p` with `0 ≤ p` below the largest `integer`, `p` tests of the loop
condition are not enough: the loop makes `p` trips and is left at the test `p + 1`. -/
theorem v2axy_out_of_fuel {R : Type} [Mul R] [Add R] (bits fuel : Nat) (p w a x y : Int)
    (s : State R) (hp0 : 0 ≤ s.ints p) (hmax : s.ints p < integerMax bits)
    (hf : fuel ≤ (s.ints p).toNat) : v2axy_ bits fuel p w a x y s = none := by
  apply v2axy_eq_none
  exact loop_out_of_fuel bits _ _ _ _ _ hmax fuel (s.ints p).toNat (enter s)
    (by simp [enter]) (by simp only [enter]; omega) hf

/-- Values left in `w[0..p)` when no trip reads a cell written by an earlier trip. -/
theorem axpyZeroBased_elem {R : Type} [Mul R] [Add R] (n : Nat) (w a x y : Int)
    (m : Int → R)
    (hz : ∀ i j : Int, 0 ≤ j → j < i → i < n →
      w + j ≠ a ∧ w + j ≠ x + i ∧ w + j ≠ y + i)
    (i : Int) (h0 : 0 ≤ i) (hn : i < n) :
    axpyZeroBased n w a x y m (w + i) = m a * m (x + i) + m (y + i) := by
  unfold axpyZeroBased
  exact forwardPass_elem w a x y n 0 m
    (fun i2 j hj1 hj2 hi2 => hz i2 j hj1 hj2 (by omega)) i h0 (by omega)

/-- Cells other than `w[0..p)` keep their values. -/
theorem axpyZeroBased_outside {R : Type} [Mul R] [Add R] (n : Nat) (w a x y : Int)
    (m : Int → R) (c : Int) (hc : c < w ∨ w + n ≤ c) :
    axpyZeroBased n w a x y m c = m c := by
  unfold axpyZeroBased
  exact forwardPass_outside w a x y n 0 m c (fun j hj1 hj2 => by omega)

/-- The call with length `1`, whatever the pointers alias: it returns `0` with
`w[0] = a*x[0] + y[0]`, computed from the initial heap, and no other cell changed. -/
theorem v2axy_length_one {R : Type} [Mul R] [Add R] (bits fuel : Nat) (p w a x y : Int)
    (s : State R) (hp : s.ints p = 1) (hbits : 1 < integerMax bits) (hfuel : 1 < fuel) :
    ∃ s1 : State R, v2axy_ bits fuel p w a x y s = some (0, s1) ∧
      s1.reals w = s.reals a * s.reals x + s.reals y ∧
      ∀ c : Int, c ≠ w → s1.reals c = s.reals c := by
  have hn : (s.ints p).toNat = 1 := by omega
  refine ⟨_, v2axy_run bits fuel p w a x y s (by omega) (by omega), ?_, ?_⟩
  · have h := axpyZeroBased_elem (s.ints p).toNat w a x y s.reals
      (fun i2 j hj1 hj2 hi2 => by omega) 0 (le_refl 0) (by omega)
    simpa using h
  · intro c hc
    exact axpyZeroBased_outside _ w a x y s.reals c (by omega)

/-- The call with length `2`, whatever the pointers alias: it returns `0`, and the
second trip reads the heap as the first trip left it. -/
theorem v2axy_length_two {R : Type} [Mul R] [Add R] (bits fuel : Nat) (p w a x y : Int)
    (s : State R) (hp : s.ints p = 2) (hbits : 2 < integerMax bits) (hfuel : 2 < fuel) :
    ∃ s1 : State R, v2axy_ bits fuel p w a x y s = some (0, s1) ∧
      s1.reals =
        store (store s.reals w (s.reals a * s.reals x + s.reals y)) (w + 1)
          (store s.reals w (s.reals a * s.reals x + s.reals y) a
            * store s.reals w (s.reals a * s.reals x + s.reals y) (x + 1)
            + store s.reals w (s.reals a * s.reals x + s.reals y) (y + 1)) := by
  have hn : (s.ints p).toNat = 2 := by omega
  refine ⟨_, v2axy_run bits fuel p w a x y s (by omega) (by omega), ?_⟩
  simp [hn, axpyZeroBased, forwardPass]

theorem cellsAscending_length (w : Int) (n : Nat) : (cellsAscending w n).length = n := by
  simp [cellsAscending]

theorem cellsAscending_get (w : Int) (n k : Nat) (h : k < n) :
    (cellsAscending w n)[k]? = some (w + (k : Int)) := by
  simp [cellsAscending, List.getElem?_map, List.getElem?_range h]


/-! ## binary32 arithmetic: lemmas -/

theorem bitLen_zero (f : Nat) : bitLen f 0 = 0 := by
  cases f <;> simp [bitLen]

theorem bitLen_lt : ∀ (f n : Nat), n < 2 ^ f → n < 2 ^ bitLen f n := by
  intro f
  induction f with
  | zero => intro n h; simpa [bitLen] using h
  | succ f ih =>
    intro n h
    by_cases hn : n = 0
    · simp [bitLen, hn]
    · simp only [bitLen, hn, if_false]
      have h2 : n / 2 < 2 ^ f := by
        rw [pow_succ] at h
        omega
      have h3 := ih (n / 2) h2
      rw [pow_succ]
      omega

theorem bitLen_ge : ∀ (f n : Nat), n ≠ 0 → 2 ^ (bitLen f n - 1) ≤ n := by
  intro f
  induction f with
  | zero => intro n h; simp [bitLen]; omega
  | succ f ih =>
    intro n hn
    simp only [bitLen, hn, if_false, Nat.add_sub_cancel]
    by_cases h2 : n / 2 = 0
    · rw [h2, bitLen_zero]
      simp
      omega
    · have h3 := ih (n / 2) h2
      by_cases hb : bitLen f (n / 2) = 0
      · rw [hb]
        simp
        omega
      · have e : bitLen f (n / 2) = (bitLen f (n / 2) - 1) + 1 := by omega
        rw [e, pow_succ]
        omega

theorem bitLen_eq (f n L : Nat) (hf : L + 1 ≤ f) (h1 : 2 ^ L ≤ n) (h2 : n < 2 ^ (L + 1)) :
    bitLen f n = L + 1 := by
  have hn : n ≠ 0 := by
    have : 0 < 2 ^ L := by positivity
    omega
  have ha := bitLen_lt f n (lt_of_lt_of_le h2 (Nat.pow_le_pow_right (by norm_num) hf))
  have hb := bitLen_ge f n hn
  have hc : L < bitLen f n :=
    (Nat.pow_lt_pow_iff_right (by norm_num : 1 < 2)).mp (lt_of_le_of_lt h1 ha)
  have hd : bitLen f n - 1 < L + 1 :=
    (Nat.pow_lt_pow_iff_right (by norm_num : 1 < 2)).mp (lt_of_le_of_lt hb h2)
  omega

theorem bitLen_le (f n L : Nat) (h : n < 2 ^ L) : bitLen f n ≤ L := by
  by_cases hn : n = 0
  · simp [hn, bitLen_zero]
  · have hb := bitLen_ge f n hn
    have hd : bitLen f n - 1 < L :=
      (Nat.pow_lt_pow_iff_right (by norm_num : 1 < 2)).mp (lt_of_le_of_lt hb h)
    omega

theorem sig_lt (e : Fin 255) (m : Fin 8388608) : sig e m < 16777216 := by
  unfold sig
  have := m.isLt
  split <;> omega

/-- Rounding is the identity on values that are binary32 numbers already. -/
theorem roundPack_canon (neg : Bool) (e : Fin 255) (m : Fin 8388608) (k : Nat)
    (hk : k ≤ 149) : roundPack neg (sig e m * 2 ^ (expo e + k)) k = F32.fin neg e m := by
  have hm := m.isLt
  have he := e.isLt
  have hpos : 0 < 2 ^ (expo e + k) := by positivity
  have hq : sig e m * 2 ^ (expo e + k) / 2 ^ (expo e + k) = sig e m :=
    Nat.mul_div_cancel _ hpos
  have hr : sig e m * 2 ^ (expo e + k) % 2 ^ (expo e + k) = 0 := Nat.mul_mod_left _ _
  have hsig := sig_lt e m
  have hsh : max k (bitLen 1024 (sig e m * 2 ^ (expo e + k)) - 24) = expo e + k := by
    by_cases h0 : e.val = 0
    · have hs : sig e m < 2 ^ 23 := by simp [sig, h0]
      have hx : expo e = 0 := by simp [expo, h0]
      have e1 : 2 ^ (23 + (expo e + k)) = 2 ^ 23 * 2 ^ (expo e + k) := pow_add _ _ _
      have hlt : sig e m * 2 ^ (expo e + k) < 2 ^ (23 + (expo e + k)) := by
        rw [e1]
        exact Nat.mul_lt_mul_of_pos_right hs hpos
      have := bitLen_le 1024 _ _ hlt
      omega
    · have hs1 : 2 ^ 23 ≤ sig e m := by simp [sig, h0]
      have hs2 : sig e m < 2 ^ 24 := by simpa using hsig
      have hx : expo e ≤ 253 := by unfold expo; omega
      have e1 : 2 ^ (23 + (expo e + k)) = 2 ^ 23 * 2 ^ (expo e + k) := pow_add _ _ _
      have e2 : 2 ^ (23 + (expo e + k) + 1) = 2 ^ 24 * 2 ^ (expo e + k) := by
        have : 23 + (expo e + k) + 1 = 24 + (expo e + k) := by omega
        rw [this]
        exact pow_add _ _ _
      have hlo : 2 ^ (23 + (expo e + k)) ≤ sig e m * 2 ^ (expo e + k) := by
        rw [e1]
        exact Nat.mul_le_mul_right _ hs1
      have hhi : sig e m * 2 ^ (expo e + k) < 2 ^ (23 + (expo e + k) + 1) := by
        rw [e2]
        exact Nat.mul_lt_mul_of_pos_right hs2 hpos
      rw [bitLen_eq 1024 _ _ (by omega) hlo hhi]
      omega
  unfold roundPack
  rw [hsh]
  unfold roundAt
  simp only [hq, hr]
  have hne : ¬ (2 ^ (expo e + k) < 2 * 0 ∨ (2 * 0 = 2 ^ (expo e + k) ∧ sig e m % 2 = 1)) := by
    intro h
    rcases h with h | ⟨h, _⟩ <;> omega
  have hne2 : sig e m ≠ 16777216 := by omega
  simp only [hne, if_false, hne2, Nat.add_sub_cancel]
  by_cases h0 : e.val = 0
  · have hs : sig e m = m.val := by simp [sig, h0]
    have hlt : sig e m < 8388608 := by omega
    rw [if_pos hlt]
    congr 1
    · exact Fin.ext h0.symm
    · apply Fin.ext
      simp only [hs]
      exact Nat.mod_eq_of_lt hm
  · have hs : sig e m = 8388608 + m.val := by simp [sig, h0]
    have hge : ¬ sig e m < 8388608 := by omega
    have hx : ¬ 254 ≤ expo e := by unfold expo; omega
    rw [if_neg hge, if_neg hx]
    refine congrArg₂ (F32.fin neg) (Fin.ext ?_) (Fin.ext ?_)
    · show (expo e + 1) % 255 = e.val
      unfold expo
      rw [Nat.mod_eq_of_lt (by omega)]
      omega
    · show (sig e m - 8388608) % 8388608 = m.val
      rw [hs, Nat.add_sub_cancel_left]
      exact Nat.mod_eq_of_lt hm

theorem F32.mul_def (a b : F32) : a * b = F32.mul a b := rfl

theorem F32.add_def (a b : F32) : a + b = F32.add a b := rfl

/-- Multiplication by `1.0f` on the left is the identity, on every value. -/
theorem F32.one_mul (v : F32) : F32.one * v = v := by
  rw [F32.mul_def]
  cases v with
  | nan => rfl
  | inf t =>
    have h : sig 127 0 ≠ 0 := by decide
    simp [F32.one, F32.mul, h]
  | fin t e m =>
    have h1 : sig 127 0 = 2 ^ 23 := by decide
    have h2 : expo 127 = 126 := by decide
    have e1 : sig 127 0 * sig e m * 2 ^ (expo 127 + expo e) = sig e m * 2 ^ (expo e + 149) := by
      rw [h1, h2]
      have : expo e + 149 = 23 + (126 + expo e) := by omega
      rw [this, pow_add]
      ring
    show roundPack (xor false t) (sig 127 0 * sig e m * 2 ^ (expo 127 + expo e)) 149 = _
    rw [e1, roundPack_canon _ _ _ _ (le_refl _)]
    simp

/-- A zero times a finite value is a zero; the sign is the exclusive or of the signs. -/
theorem F32.zero_mul_fin (sa t : Bool) (e : Fin 255) (m : Fin 8388608) :
    F32.fin sa 0 0 * F32.fin t e m = F32.fin (xor sa t) 0 0 := by
  show roundPack (xor sa t) (sig 0 0 * sig e m * 2 ^ (expo 0 + expo e)) 149 = _
  have h1 : sig 0 0 = 0 := by decide
  have e1 : sig 0 0 * sig e m * 2 ^ (expo 0 + expo e) = sig 0 0 * 2 ^ (expo 0 + 149) := by
    rw [h1]
    simp
  rw [e1, roundPack_canon _ _ _ _ (le_refl _)]

/-- Adding a zero to `v`: the sum is `v`, except that the sum of the two zeros of
opposite sign is `+0`. -/
theorem F32.signedZero_add (sz : Bool) (v : F32) :
    F32.fin sz 0 0 + v = v ∨ (v = F32.negZero ∧ F32.fin sz 0 0 + v = F32.zero) := by
  cases v with
  | nan => left; rfl
  | inf t => left; rfl
  | fin t e m =>
    have h1 : sig 0 0 * 2 ^ expo 0 = 0 := by decide
    have hc := roundPack_canon t e m 0 (by omega)
    rw [Nat.add_zero] at hc
    rw [F32.add_def]
    simp only [F32.add, h1, Nat.zero_add, Nat.sub_zero]
    by_cases hs : sz = t
    · left
      simp only [hs, if_true]
      exact hc
    · simp only [hs, if_false]
      by_cases hz : 0 = sig e m * 2 ^ expo e
      · simp only [hz.symm, if_true]
        have hsig : sig e m = 0 := by
          have hp : 0 < 2 ^ expo e := by positivity
          rcases Nat.mul_eq_zero.mp hz.symm with h | h
          · exact h
          · omega
        have he0 : e = 0 := by
          apply Fin.ext
          by_contra hne
          have hne2 : ¬ e.val = 0 := hne
          simp [sig, hne2] at hsig
        have hm0 : m = 0 := by
          apply Fin.ext
          subst he0
          simpa [sig] using hsig
        subst he0
        subst hm0
        cases t with
        | false => left; rfl
        | true => right; exact ⟨rfl, rfl⟩
      · left
        have hnlt : ¬ sig e m * 2 ^ expo e < 0 := by omega
        simp only [hz, if_false, hnlt]
        exact hc


/-! ## Order of the trips -/

theorem mem_indexList (n : Nat) (i : Int) : i ∈ indexList n ↔ 0 ≤ i ∧ i < n := by
  unfold indexList
  simp only [List.mem_map, List.mem_range]
  constructor
  · rintro ⟨k, hk, rfl⟩
    omega
  · rintro ⟨h0, hn⟩
    exact ⟨i.toNat, by omega, by omega⟩

theorem indexList_nodup (n : Nat) : (indexList n).Nodup := by
  unfold indexList
  refine List.Nodup.map ?_ (List.nodup_range n)
  intro i j hij
  exact Int.ofNat.inj hij

/-- The ascending forward pass is the body run over `k, k+1, ..., k+n-1` in this order. -/
theorem forwardPass_eq_passInOrder {R : Type} [Mul R] [Add R] (w a x y : Int) :
    ∀ (n : Nat) (k : Int) (m : Int → R),
      forwardPass w a x y n k m
        = passInOrder w a x y ((List.range n).map (fun (j : Nat) => k + (j : Int))) m := by
  intro n
  induction n with
  | zero => intro k m; rfl
  | succ n ih =>
    intro k m
    simp only [forwardPass, List.range_succ_eq_map, List.map_cons, List.map_map, passInOrder]
    rw [ih (k + 1)]
    have e : (fun (j : Nat) => k + 1 + (j : Int))
        = (fun (j : Nat) => k + (j : Int)) ∘ Nat.succ := by
      funext j
      simp only [Function.comp, Nat.succ_eq_add_one]
      push_cast
      ring
    have e0 : k + ((0 : Nat) : Int) = k := by simp
    rw [e, e0]

theorem axpyZeroBased_eq_passInOrder {R : Type} [Mul R] [Add R] (n : Nat) (w a x y : Int)
    (m : Int → R) : axpyZeroBased n w a x y m = passInOrder w a x y (indexList n) m := by
  unfold axpyZeroBased indexList
  rw [forwardPass_eq_passInOrder]
  funext j
  simp

/-- The body run over a duplicate-free list of indices, when distinct indices never
share a cell between the written and the read vectors and the scalar is not written:
every visited `w[i]` ends as `a*x[i] + y[i]` computed from the initial heap, every
other cell is unchanged. -/
theorem passInOrder_spec {R : Type} [Mul R] [Add R] (w a x y : Int) (n : Nat)
    (ha : ∀ j : Int, 0 ≤ j → j < n → w + j ≠ a)
    (hz : ∀ i j : Int, 0 ≤ i → i < n → 0 ≤ j → j < n → i ≠ j →
      w + j ≠ x + i ∧ w + j ≠ y + i) :
    ∀ (order : List Int) (m : Int → R), order.Nodup →
      (∀ i ∈ order, 0 ≤ i ∧ i < n) →
      (∀ i ∈ order, passInOrder w a x y order m (w + i) = m a * m (x + i) + m (y + i)) ∧
      (∀ c : Int, (∀ i ∈ order, c ≠ w + i) → passInOrder w a x y order m c = m c) := by
  intro order
  induction order with
  | nil =>
    intro m _ _
    exact ⟨fun i hi => by simp at hi, fun c _ => rfl⟩
  | cons i r ih =>
    intro m hnd hin
    have hi := hin i (List.mem_cons_self i r)
    have hnr : r.Nodup := (List.nodup_cons.mp hnd).2
    have hir : i ∉ r := (List.nodup_cons.mp hnd).1
    have hinr : ∀ j ∈ r, 0 ≤ j ∧ j < n := fun j hj => hin j (List.mem_cons_of_mem i hj)
    obtain ⟨ihA, ihB⟩ := ih (store m (w + i) (m a * m (x + i) + m (y + i))) hnr hinr
    simp only [passInOrder]
    constructor
    · intro j hj
      rcases List.mem_cons.mp hj with rfl | hjr
      · rw [ihB (w + j) (fun k hk hkj => hir (by
          have : j = k := by omega
          rw [this]; exact hk))]
        exact store_same _ _ _
      · have hne : i ≠ j := fun h => hir (h ▸ hjr)
        have hj2 := hinr j hjr
        have h3 := hz j i hj2.1 hj2.2 hi.1 hi.2 (Ne.symm hne)
        rw [ihA j hjr, store_other _ _ _ _ (Ne.symm (ha i hi.1 hi.2)),
          store_other _ _ _ _ (Ne.symm h3.1), store_other _ _ _ _ (Ne.symm h3.2)]
    · intro c hc
      rw [ihB c (fun k hk => hc k (List.mem_cons_of_mem i hk))]
      exact store_other _ _ _ _ (hc i (List.mem_cons_self i r))

/-- Under the same conditions, any two duplicate-free lists with the same indices give
the same final heap. -/
theorem passInOrder_order_irrelevant {R : Type} [Mul R] [Add R] (w a x y : Int) (n : Nat)
    (ha : ∀ j : Int, 0 ≤ j → j < n → w + j ≠ a)
    (hz : ∀ i j : Int, 0 ≤ i → i < n → 0 ≤ j → j < n → i ≠ j →
      w + j ≠ x + i ∧ w + j ≠ y + i)
    (o1 o2 : List Int) (m : Int → R) (h1 : o1.Nodup) (h2 : o2.Nodup)
    (hin : ∀ i ∈ o1, 0 ≤ i ∧ i < n) (hmem : ∀ i : Int, i ∈ o1 ↔ i ∈ o2) :
    passInOrder w a x y o1 m = passInOrder w a x y o2 m := by
  have hin2 : ∀ i ∈ o2, 0 ≤ i ∧ i < n := fun i hi => hin i ((hmem i).mpr hi)
  obtain ⟨a1, b1⟩ := passInOrder_spec w a x y n ha hz o1 m h1 hin
  obtain ⟨a2, b2⟩ := passInOrder_spec w a x y n ha hz o2 m h2 hin2
  funext c
  by_cases hc : ∃ i ∈ o1, c = w + i
  · obtain ⟨i, hi, rfl⟩ := hc
    rw [a1 i hi, a2 i ((hmem i).mp hi)]
  · have hc1 : ∀ i ∈ o1, c ≠ w + i := fun i hi h => hc ⟨i, hi, h⟩
    have hc2 : ∀ i ∈ o2, c ≠ w + i := fun i hi h => hc ⟨i, (hmem i).mpr hi, h⟩
    rw [b1 c hc1, b2 c hc2]

/-- The conditions of `passInOrder_spec` hold when the scalar lies outside `w[0..n)` and
each of `x`, `y` is either `w` itself or disjoint from `w[0..n)`. -/
theorem sameBase_or_disjoint (w a x y : Int) (n : Nat)
    (ha : a < w ∨ w + n ≤ a)
    (hx : x = w ∨ x + n ≤ w ∨ w + n ≤ x)
    (hy : y = w ∨ y + n ≤ w ∨ w + n ≤ y) :
    (∀ j : Int, 0 ≤ j → j < n → w + j ≠ a) ∧
    (∀ i j : Int, 0 ≤ i → i < n → 0 ≤ j → j < n → i ≠ j →
      w + j ≠ x + i ∧ w + j ≠ y + i) := by
  refine ⟨fun j h0 hn => by omega, fun i j hi0 hin hj0 hjn hij => ⟨?_, ?_⟩⟩
  · rcases hx with h | h | h <;> omega
  · rcases hy with h | h | h <;> omega

/-! ## The static counter -/

/-- The loop on the state and the loop with a local counter compute the same heap. -/
theorem loop_eq_loopLocal {R : Type} [Mul R] [Add R] (bits : Nat) (i__1 w a x y : Int) :
    ∀ (fuel : Nat) (s : State R),
      (loop bits i__1 w a x y fuel s).map (fun s1 => s1.reals)
        = loopLocal bits i__1 w a x y fuel s.i__ s.reals := by
  intro fuel
  induction fuel with
  | zero => intro s; rfl
  | succ n ih =>
    intro s
    by_cases hc : s.i__ ≤ i__1
    · simp only [loop, loopStep, hc, if_true, loopLocal, loopBody]
      rw [ih]
    · simp [loop, loopStep, hc, loopLocal]

theorem v2axy_eq_local {R : Type} [Mul R] [Add R] (bits fuel : Nat) (p w a x y : Int)
    (s : State R) :
    (v2axy_ bits fuel p w a x y s).map (fun r => (r.1, r.2.reals))
      = v2axy_local bits fuel p w a x y s.ints s.reals := by
  have h := loop_eq_loopLocal bits (s.ints p) (w - 1) a (x - 1) (y - 1) fuel (enter s)
  have e1 : (enter s).i__ = 1 := rfl
  have e2 : (enter s).reals = s.reals := rfl
  rw [e1, e2] at h
  unfold v2axy_local
  rw [← h]
  cases hl : loop bits (s.ints p) (w - 1) a (x - 1) (y - 1) fuel (enter s) with
  | none => simp [v2axy_, hl]
  | some s1 => simp [v2axy_, hl]

/-- The value of `i__` before the call does not reach the loop. -/
theorem v2axy_prior_counter {R : Type} [Mul R] [Add R] (bits fuel : Nat) (p w a x y : Int)
    (s : State R) (i0 : Int) :
    v2axy_ bits fuel p w a x y { s with i__ := i0 } = v2axy_ bits fuel p w a x y s := rfl

/-! ## Negative lengths, dependence on the inputs, return value -/

theorem loopReads_exit {R : Type} [Mul R] [Add R] (bits : Nat) (i__1 w a x y : Int)
    (n : Nat) (s : State R) (h : loopStep bits i__1 w a x y s = none) :
    loopReads bits i__1 w a x y n s = [] := by
  cases n with
  | zero => rfl
  | succ n => simp [loopReads, h]

/-- With `i__1` at least the largest `integer` and the test passed once, the loop
condition never fails, for every width. -/
theorem loop_diverges_from {R : Type} [Mul R] [Add R] (bits : Nat) (i__1 w a x y : Int)
    (hmax : integerMax bits ≤ i__1) :
    ∀ (fuel : Nat) (s : State R), s.i__ ≤ i__1 →
      loop bits i__1 w a x y fuel s = none := by
  intro fuel
  induction fuel with
  | zero => intro s _; rfl
  | succ n ih =>
    intro s hs
    simp only [loop, loopStep, hs, if_true]
    exact ih _ (le_trans (wrapInteger_le_max bits _) hmax)

/-- Whether the loop is left within the fuel depends on the counter alone, not on the
heaps. -/
theorem loop_isSome_congr {R : Type} [Mul R] [Add R] (bits : Nat) (i__1 w a x y : Int) :
    ∀ (fuel : Nat) (s t : State R), s.i__ = t.i__ →
      (loop bits i__1 w a x y fuel s).isSome = (loop bits i__1 w a x y fuel t).isSome := by
  intro fuel
  induction fuel with
  | zero => intro s t _; rfl
  | succ n ih =>
    intro s t h
    by_cases hc : s.i__ ≤ i__1
    · have hc2 : t.i__ ≤ i__1 := h ▸ hc
      simp only [loop, loopStep, hc, hc2, if_true]
      exact ih _ _ (by simp [loopBody, h])
    · have hc2 : ¬ t.i__ ≤ i__1 := h ▸ hc
      simp [loop, loopStep, hc, hc2]

/-- Two heaps that agree on the scalar and on `x[k..k+n)`, `y[k..k+n)` give forward
passes that agree on `w[k..k+n)`, when no trip reads an element of `x` or `y` that an
earlier trip wrote (the scalar may lie anywhere). -/
theorem forwardPass_agree {R : Type} [Mul R] [Add R] (w a x y : Int) :
    ∀ (n : Nat) (k : Int) (m m2 : Int → R), m a = m2 a →
      (∀ i : Int, k ≤ i → i < k + n → m (x + i) = m2 (x + i) ∧ m (y + i) = m2 (y + i)) →
      (∀ i j : Int, k ≤ j → j < i → i < k + n → w + j ≠ x + i ∧ w + j ≠ y + i) →
      ∀ i : Int, k ≤ i → i < k + n →
        forwardPass w a x y n k m (w + i) = forwardPass w a x y n k m2 (w + i) := by
  intro n
  induction n with
  | zero => intro k m m2 _ _ _ i h1 h2; simp at h2; omega
  | succ n ih =>
    intro k m m2 ha hxy hz i h1 h2
    have hk := hxy k (le_refl k) (by push_cast; omega)
    have hv : m a * m (x + k) + m (y + k) = m2 a * m2 (x + k) + m2 (y + k) := by
      rw [ha, hk.1, hk.2]
    simp only [forwardPass]
    by_cases hik : i = k
    · subst hik
      rw [forwardPass_outside w a x y n (i + 1) _ (w + i) (fun j hj1 _ => by omega),
        forwardPass_outside w a x y n (i + 1) _ (w + i) (fun j hj1 _ => by omega),
        store_same, store_same, hv]
    · apply ih (k + 1)
      · by_cases hak : a = w + k
        · rw [hak, store_same, store_same, ← hak, hv]
        · rw [store_other _ _ _ _ hak, store_other _ _ _ _ hak, ha]
      · intro i2 hi1 hi2
        have h3 := hz i2 k (le_refl k) (by omega) (by push_cast at hi2 ⊢; omega)
        have h4 := hxy i2 (by omega) (by push_cast at hi2 ⊢; omega)
        rw [store_other _ _ _ _ (Ne.symm h3.1), store_other _ _ _ _ (Ne.symm h3.1),
          store_other _ _ _ _ (Ne.symm h3.2), store_other _ _ _ _ (Ne.symm h3.2)]
        exact h4
      · intro i2 j hj1 hj2 hi2
        exact hz i2 j (by omega) hj2 (by push_cast at hi2 ⊢; omega)
      · omega
      · push_cast at h2; omega

/-- The loop of the source is the loop with the wrapping increment. -/
theorem loopWith_wrap {R : Type} [Mul R] [Add R] (bits : Nat) (i__1 w a x y : Int) :
    ∀ (fuel : Nat) (s : State R),
      loopWith (fun v => wrapInteger bits (v + 1)) i__1 w a x y fuel s
        = loop bits i__1 w a x y fuel s := by
  intro fuel
  induction fuel with
  | zero => intro s; rfl
  | succ n ih =>
    intro s
    by_cases hc : s.i__ ≤ i__1
    · simp only [loopWith, loop, loopStepWith, loopStep, hc, if_true]
      exact ih _
    · simp only [loopWith, loop, loopStepWith, loopStep, hc, if_false]

/-- The subroutine of the source is the subroutine with the wrapping increment. -/
theorem v2axy_with_wrap {R : Type} [Mul R] [Add R] (bits fuel : Nat) (p w a x y : Int)
    (s : State R) :
    v2axy_with (fun v => wrapInteger bits (v + 1)) fuel p w a x y s
      = v2axy_ bits fuel p w a x y s := by
  unfold v2axy_with
  rw [loopWith_wrap]
  rfl

/-- When no value that the increment can leave in the counter exceeds the bound, the
loop test holds on every trip and the loop is not left. -/
theorem loopWith_diverges {R : Type} [Mul R] [Add R] (next : Int → Int)
    (i__1 w a x y : Int) (hnext : ∀ v : Int, next v ≤ i__1) :
    ∀ (fuel : Nat) (s : State R), s.i__ ≤ i__1 →
      loopWith next i__1 w a x y fuel s = none := by
  intro fuel
  induction fuel with
  | zero => intro s _; rfl
  | succ n ih =>
    intro s hs
    simp only [loopWith, loopStepWith, hs, if_true]
    exact ih _ (hnext _)

/-- With the length at the largest `integer`, the call returns for no amount of fuel,
whatever value of the type the increment leaves in the counter. -/
theorem v2axy_with_never_returns {R : Type} [Mul R] [Add R] (bits : Nat)
    (next : Int → Int) (p w a x y : Int) (s : State R) (hbits : 2 ≤ bits)
    (hnext : ∀ v : Int, next v ≤ integerMax bits) (hp : s.ints p = integerMax bits)
    (fuel : Nat) :
    v2axy_with next fuel p w a x y s = none := by
  have h := loopWith_diverges next (s.ints p) (w - 1) a (x - 1) (y - 1)
    (fun v => hp ▸ hnext v) fuel (enter s)
    (by rw [hp]; exact one_le_integerMax bits hbits)
  unfold v2axy_with
  rw [h]

/-- C1 (amended): for every length `p` with `0 ≤ p` below the largest `integer`, a
scalar `a` stored outside `w[0..p)` and vectors `x`, `y` whose first `p` cells are
disjoint from `w[0..p)`, the call returns `0` and afterwards `w[i] = a*x[i] + y[i]` for
every `i` in `[0, p)`; the final heap is the one produced by the zero-based forward
pass, and the cells written through the decremented pointers are exactly the
zero-based cells `w[0], ..., w[p-1]`. -/
theorem v2axy_sets_w {R : Type} [Mul R] [Add R] (bits fuel : Nat) (p w a x y : Int)
    (s : State R) (hp0 : 0 ≤ s.ints p) (hpmax : s.ints p < integerMax bits)
    (hfuel : (s.ints p).toNat < fuel)
    (ha : a < w ∨ w + s.ints p ≤ a)
    (hx : x + s.ints p ≤ w ∨ w + s.ints p ≤ x)
    (hy : y + s.ints p ≤ w ∨ w + s.ints p ≤ y) :
    ∃ s1 : State R, v2axy_ bits fuel p w a x y s = some (0, s1) ∧
      s1.reals = axpyZeroBased (s.ints p).toNat w a x y s.reals ∧
      s1.log = s.log ++ cellsAscending w (s.ints p).toNat ∧
      ∀ i : Int, 0 ≤ i → i < s.ints p →
        s1.reals (w + i) = s.reals a * s.reals (x + i) + s.reals (y + i) := by
  refine ⟨_, v2axy_run bits fuel p w a x y s hpmax hfuel, rfl, rfl, ?_⟩
  intro i h0 hi
  exact axpyZeroBased_elem _ w a x y s.reals
    (fun i2 j hj1 hj2 hi2 => ⟨by omega, by omega, by omega⟩) i h0 (by omega)

/-- Witness for C1: the example state (`p = 3`, `a` in cell `100`, `x` at `10`, `y` at
`20`, `w` at `0`), 32-bit `integer`. -/
theorem v2axy_sets_w_witness :
    ∃ s1 : State F32, v2axy_ 32 4 0 0 100 10 20 exampleState = some (0, s1) ∧
      s1.reals = axpyZeroBased (exampleState.ints 0).toNat 0 100 10 20 exampleState.reals ∧
      s1.log = exampleState.log ++ cellsAscending 0 (exampleState.ints 0).toNat ∧
      ∀ i : Int, 0 ≤ i → i < exampleState.ints 0 →
        s1.reals (0 + i) =
          exampleState.reals 100 * exampleState.reals (10 + i) + exampleState.reals (20 + i) :=
  v2axy_sets_w 32 4 0 0 100 10 20 exampleState (by decide) (by decide) (by decide)
    (by decide) (by decide) (by decide)

/-- C1 (counterexample), two inputs that satisfy the claim's conditions.
First, `p = 2`, `x = [1, 1]`, `y = [1, 0]`, `w` disjoint from both, and the scalar
passed as a pointer to `w[0]`, which holds `2.0`: the first trip overwrites the scalar
with `3.0`, so the call leaves `w[1] = 3.0`, not `2.0*1 + 0 = 2.0`.
Second, a 32-bit `integer`, the length `2147483647` and three pairwise disjoint
vectors: the call returns for no amount of fuel, so there is no state after the call
in which `w[i] = a*x[i] + y[i]`. -/
theorem v2axy_sets_w_fails :
    (((10 : Int) + (mkState 2 aliasReals).ints 0 ≤ 0 ∨ 0 + (mkState 2 aliasReals).ints 0 ≤ 10) ∧
     ((20 : Int) + (mkState 2 aliasReals).ints 0 ≤ 0 ∨ 0 + (mkState 2 aliasReals).ints 0 ≤ 20) ∧
     ∃ s1 : State F32, v2axy_ 32 3 0 0 0 10 20 (mkState 2 aliasReals) = some (0, s1) ∧
       s1.reals (0 + 1) = F32.ofNat 3 ∧
       (mkState 2 aliasReals).reals 0 * (mkState 2 aliasReals).reals (10 + 1)
         + (mkState 2 aliasReals).reals (20 + 1) = F32.ofNat 2 ∧
       s1.reals (0 + 1) ≠ (mkState 2 aliasReals).reals 0 * (mkState 2 aliasReals).reals (10 + 1)
         + (mkState 2 aliasReals).reals (20 + 1)) ∧
    ((0 ≤ overflowState.ints 0 ∧ overflowState.ints 0 = integerMax 32) ∧
     ((-1 : Int) < 0 ∨ 0 + overflowState.ints 0 ≤ -1) ∧
     ((2147483648 : Int) + overflowState.ints 0 ≤ 0 ∨ 0 + overflowState.ints 0 ≤ 2147483648) ∧
     ((4294967296 : Int) + overflowState.ints 0 ≤ 0 ∨ 0 + overflowState.ints 0 ≤ 4294967296) ∧
     ¬ ∃ (fuel : Nat) (s1 : State F32),
        v2axy_ 32 fuel 0 0 (-1) 2147483648 4294967296 overflowState = some (0, s1) ∧
        ∀ i : Int, 0 ≤ i → i < overflowState.ints 0 →
          s1.reals (0 + i) = overflowState.reals (-1) * overflowState.reals (2147483648 + i)
            + overflowState.reals (4294967296 + i)) := by
  constructor
  · obtain ⟨s1, hrun, hre⟩ := v2axy_length_two 32 3 0 0 0 10 20 (mkState 2 aliasReals)
      rfl (by decide) (by decide)
    refine ⟨by decide, by decide, s1, hrun, ?_, by decide!, ?_⟩
    · rw [hre]
      decide!
    · rw [hre]
      decide!
  · refine ⟨by decide, by decide, by decide, by decide, ?_⟩
    rintro ⟨fuel, s1, h, _⟩
    rw [v2axy_never_returns 32 0 0 (-1) 2147483648 4294967296 overflowState (by decide)
      (le_refl _) fuel] at h
    cases h

/-- C2: for every length `p` and every index `j ≥ p`, the element `w[j]` holds its
initial value after any number of trips around the loop, hence in any state the call
returns; and for every `p` below the largest `integer` the call does return. -/
theorem v2axy_tail_untouched {R : Type} [Mul R] [Add R] (bits : Nat) (p w a x y : Int)
    (s : State R) (j : Int) (hj : s.ints p ≤ j) :
    (∀ n : Nat, (v2axy_after bits n p w a x y s).reals (w + j) = s.reals (w + j)) ∧
    (∀ (fuel : Nat) (r : Int × State R), v2axy_ bits fuel p w a x y s = some r →
      r.2.reals (w + j) = s.reals (w + j)) ∧
    (s.ints p < integerMax bits → ∀ fuel : Nat, (s.ints p).toNat < fuel →
      ∃ s1 : State R, v2axy_ bits fuel p w a x y s = some (0, s1) ∧
        s1.reals (w + j) = s.reals (w + j)) := by
  have hpre : ∀ n : Nat,
      (v2axy_after bits n p w a x y s).reals (w + j) = s.reals (w + j) := by
    intro n
    unfold v2axy_after
    rw [loopAfter_frame bits (s.ints p) (w - 1) a (x - 1) (y - 1) (w + j)
      (fun k hk => by omega) n (enter s)]
    rfl
  have hret : ∀ (fuel : Nat) (r : Int × State R), v2axy_ bits fuel p w a x y s = some r →
      r.2.reals (w + j) = s.reals (w + j) := by
    intro fuel r h
    have h2 := (v2axy_some_inv bits fuel p w a x y s r h).2
    rw [loop_eq_loopAfter bits _ _ _ _ _ fuel _ _ h2]
    exact hpre fuel
  refine ⟨hpre, hret, ?_⟩
  intro hmax fuel hf
  have hrun := v2axy_run bits fuel p w a x y s hmax hf
  exact ⟨_, hrun, hret fuel _ hrun⟩

/-- Witness for C2: the example state, `p = 3`, index `j = 5`. -/
theorem v2axy_tail_untouched_witness :
    (∀ n : Nat, (v2axy_after 32 n 0 0 100 10 20 exampleState).reals (0 + 5)
      = exampleState.reals (0 + 5)) ∧
    (∀ (fuel : Nat) (r : Int × State F32), v2axy_ 32 fuel 0 0 100 10 20 exampleState = some r →
      r.2.reals (0 + 5) = exampleState.reals (0 + 5)) ∧
    (exampleState.ints 0 < integerMax 32 → ∀ fuel : Nat, (exampleState.ints 0).toNat < fuel →
      ∃ s1 : State F32, v2axy_ 32 fuel 0 0 100 10 20 exampleState = some (0, s1) ∧
        s1.reals (0 + 5) = exampleState.reals (0 + 5)) :=
  v2axy_tail_untouched 32 0 0 100 10 20 exampleState 5 (by decide)

/-- C3: when `p = 0` the call returns `0` having performed no write: the `real` heap,
hence all of `w`, is as before the call, and nothing was added to the write log. -/
theorem v2axy_length_zero {R : Type} [Mul R] [Add R] (bits fuel : Nat) (p w a x y : Int)
    (s : State R) (hp : s.ints p = 0) (hfuel : 0 < fuel) :
    ∃ s1 : State R, v2axy_ bits fuel p w a x y s = some (0, s1) ∧
      s1.reals = s.reals ∧ s1.log = s.log ∧ s1.ints = s.ints := by
  obtain ⟨f, rfl⟩ : ∃ f, fuel = f + 1 := ⟨fuel - 1, by omega⟩
  refine ⟨enter s, ?_, rfl, rfl, rfl⟩
  apply v2axy_eq_some
  exact loop_exit bits _ _ _ _ _ f (enter s) (by simp [enter, hp])

/-- Witness for C3: length `0`, the example heap. -/
theorem v2axy_length_zero_witness :
    ∃ s1 : State F32, v2axy_ 32 1 0 0 100 10 20 (mkState 0 exampleReals) = some (0, s1) ∧
      s1.reals = (mkState 0 exampleReals).reals ∧ s1.log = (mkState 0 exampleReals).log ∧
      s1.ints = (mkState 0 exampleReals).ints :=
  v2axy_length_zero 32 1 0 0 100 10 20 (mkState 0 exampleReals) rfl (by decide)

/-- C4 (amended): in-place use with `w` at the base of `x`.  For every length `p` with
`0 ≤ p` below the largest `integer`, a scalar `a` stored outside the vectors and `y`
disjoint from `x`, the call `v2axy_(p, x, a, x, y)` and the call `v2axy_(p, w, a, x, y)`
with a disjoint `w` both return `0`, and the first leaves in `x[i]` the value the second
leaves in `w[i]`, namely `a*x_old[i] + y[i]`, for every `i` in `[0, p)`. -/
theorem v2axy_in_place_x {R : Type} [Mul R] [Add R] (bits fuel : Nat) (p w a x y : Int)
    (s : State R) (hp0 : 0 ≤ s.ints p) (hpmax : s.ints p < integerMax bits)
    (hfuel : (s.ints p).toNat < fuel)
    (hax : a < x ∨ x + s.ints p ≤ a)
    (hyx : y + s.ints p ≤ x ∨ x + s.ints p ≤ y)
    (haw : a < w ∨ w + s.ints p ≤ a)
    (hxw : x + s.ints p ≤ w ∨ w + s.ints p ≤ x)
    (hyw : y + s.ints p ≤ w ∨ w + s.ints p ≤ y) :
    ∃ s1 s2 : State R, v2axy_ bits fuel p x a x y s = some (0, s1) ∧
      v2axy_ bits fuel p w a x y s = some (0, s2) ∧
      ∀ i : Int, 0 ≤ i → i < s.ints p →
        s1.reals (x + i) = s2.reals (w + i) ∧
        s1.reals (x + i) = s.reals a * s.reals (x + i) + s.reals (y + i) := by
  refine ⟨_, _, v2axy_run bits fuel p x a x y s hpmax hfuel,
    v2axy_run bits fuel p w a x y s hpmax hfuel, ?_⟩
  intro i h0 hi
  have h1 := axpyZeroBased_elem (s.ints p).toNat x a x y s.reals
    (fun i2 j hj1 hj2 hi2 => ⟨by omega, by omega, by omega⟩) i h0 (by omega)
  have h2 := axpyZeroBased_elem (s.ints p).toNat w a x y s.reals
    (fun i2 j hj1 hj2 hi2 => ⟨by omega, by omega, by omega⟩) i h0 (by omega)
  exact ⟨h1.trans h2.symm, h1⟩

/-- Witness for C4: the example state, in place on `x` (cells `10 .. 12`) and with a
separate `w` (cells `0 .. 2`). -/
theorem v2axy_in_place_x_witness :
    ∃ s1 s2 : State F32, v2axy_ 32 4 0 10 100 10 20 exampleState = some (0, s1) ∧
      v2axy_ 32 4 0 0 100 10 20 exampleState = some (0, s2) ∧
      ∀ i : Int, 0 ≤ i → i < exampleState.ints 0 →
        s1.reals (10 + i) = s2.reals (0 + i) ∧
        s1.reals (10 + i) =
          exampleState.reals 100 * exampleState.reals (10 + i) + exampleState.reals (20 + i) :=
  v2axy_in_place_x 32 4 0 0 100 10 20 exampleState (by decide) (by decide) (by decide)
    (by decide) (by decide) (by decide) (by decide) (by decide)

/-- C4 (counterexample), two inputs that satisfy the claim's conditions.
First, `p = 2`, `x = [2, 1]`, `y = [1, 0]` and the scalar passed as a pointer to `x[0]`:
the in-place call overwrites the scalar with `5.0` on its first trip and leaves
`x[1] = 5.0`, while the call with a separate `w` leaves `w[1] = 2.0`.
Second, a 32-bit `integer` and the length `2147483647`: the in-place call returns for
no amount of fuel, so it leaves no final `x`. -/
theorem v2axy_in_place_x_fails :
    (∃ s1 s2 : State F32,
       v2axy_ 32 3 0 10 10 10 20 (mkState 2 inPlaceXReals) = some (0, s1) ∧
       v2axy_ 32 3 0 0 10 10 20 (mkState 2 inPlaceXReals) = some (0, s2) ∧
       s1.reals (10 + 1) = F32.ofNat 5 ∧ s2.reals (0 + 1) = F32.ofNat 2 ∧
       s1.reals (10 + 1) ≠ s2.reals (0 + 1)) ∧
    ((0 ≤ overflowState.ints 0 ∧ overflowState.ints 0 = integerMax 32) ∧
     ((-1 : Int) < 0 ∨ 0 + overflowState.ints 0 ≤ -1) ∧
     ((2147483648 : Int) + overflowState.ints 0 ≤ 0 ∨ 0 + overflowState.ints 0 ≤ 2147483648) ∧
     ¬ ∃ (fuel : Nat) (s1 : State F32),
        v2axy_ 32 fuel 0 0 (-1) 0 2147483648 overflowState = some (0, s1) ∧
        ∀ i : Int, 0 ≤ i → i < overflowState.ints 0 →
          s1.reals (0 + i) = overflowState.reals (-1) * overflowState.reals (0 + i)
            + overflowState.reals (2147483648 + i)) := by
  constructor
  · obtain ⟨s1, hrun1, hre1⟩ := v2axy_length_two 32 3 0 10 10 10 20 (mkState 2 inPlaceXReals)
      rfl (by decide) (by decide)
    obtain ⟨s2, hrun2, hre2⟩ := v2axy_length_two 32 3 0 0 10 10 20 (mkState 2 inPlaceXReals)
      rfl (by decide) (by decide)
    refine ⟨s1, s2, hrun1, hrun2, ?_, ?_, ?_⟩
    · rw [hre1]
      decide!
    · rw [hre2]
      decide!
    · rw [hre1, hre2]
      decide!
  · refine ⟨by decide, by decide, by decide, ?_⟩
    rintro ⟨fuel, s1, h, _⟩
    rw [v2axy_never_returns 32 0 0 (-1) 0 2147483648 overflowState (by decide)
      (le_refl _) fuel] at h
    cases h

/-- C5 (amended): in-place use with `w` at the base of `y`.  For every length `p` with
`0 ≤ p` below the largest `integer`, a scalar `a` stored outside the vectors and `x`
disjoint from `y`, the call `v2axy_(p, y, a, x, y)` and the call `v2axy_(p, w, a, x, y)`
with a disjoint `w` both return `0`, and the first leaves in `y[i]` the value the second
leaves in `w[i]`, namely `a*x[i] + y_old[i]`, for every `i` in `[0, p)`. -/
theorem v2axy_in_place_y {R : Type} [Mul R] [Add R] (bits fuel : Nat) (p w a x y : Int)
    (s : State R) (hp0 : 0 ≤ s.ints p) (hpmax : s.ints p < integerMax bits)
    (hfuel : (s.ints p).toNat < fuel)
    (hay : a < y ∨ y + s.ints p ≤ a)
    (hxy : x + s.ints p ≤ y ∨ y + s.ints p ≤ x)
    (haw : a < w ∨ w + s.ints p ≤ a)
    (hxw : x + s.ints p ≤ w ∨ w + s.ints p ≤ x)
    (hyw : y + s.ints p ≤ w ∨ w + s.ints p ≤ y) :
    ∃ s1 s2 : State R, v2axy_ bits fuel p y a x y s = some (0, s1) ∧
      v2axy_ bits fuel p w a x y s = some (0, s2) ∧
      ∀ i : Int, 0 ≤ i → i < s.ints p →
        s1.reals (y + i) = s2.reals (w + i) ∧
        s1.reals (y + i) = s.reals a * s.reals (x + i) + s.reals (y + i) := by
  refine ⟨_, _, v2axy_run bits fuel p y a x y s hpmax hfuel,
    v2axy_run bits fuel p w a x y s hpmax hfuel, ?_⟩
  intro i h0 hi
  have h1 := axpyZeroBased_elem (s.ints p).toNat y a x y s.reals
    (fun i2 j hj1 hj2 hi2 => ⟨by omega, by omega, by omega⟩) i h0 (by omega)
  have h2 := axpyZeroBased_elem (s.ints p).toNat w a x y s.reals
    (fun i2 j hj1 hj2 hi2 => ⟨by omega, by omega, by omega⟩) i h0 (by omega)
  exact ⟨h1.trans h2.symm, h1⟩

/-- Witness for C5: the example state, in place on `y` (cells `20 .. 22`) and with a
separate `w` (cells `0 .. 2`). -/
theorem v2axy_in_place_y_witness :
    ∃ s1 s2 : State F32, v2axy_ 32 4 0 20 100 10 20 exampleState = some (0, s1) ∧
      v2axy_ 32 4 0 0 100 10 20 exampleState = some (0, s2) ∧
      ∀ i : Int, 0 ≤ i → i < exampleState.ints 0 →
        s1.reals (20 + i) = s2.reals (0 + i) ∧
        s1.reals (20 + i) =
          exampleState.reals 100 * exampleState.reals (10 + i) + exampleState.reals (20 + i) :=
  v2axy_in_place_y 32 4 0 0 100 10 20 exampleState (by decide) (by decide) (by decide)
    (by decide) (by decide) (by decide) (by decide) (by decide)

/-- C5 (counterexample), two inputs that satisfy the claim's conditions.
First, `p = 2`, `x = [1, 1]`, `y = [2, 0]` and the scalar passed as a pointer to `y[0]`:
the in-place call overwrites the scalar with `4.0` on its first trip and leaves
`y[1] = 4.0`, while the call with a separate `w` leaves `w[1] = 2.0`.
Second, a 32-bit `integer` and the length `2147483647`: the in-place call returns for
no amount of fuel, so it leaves no final `y`. -/
theorem v2axy_in_place_y_fails :
    (∃ s1 s2 : State F32,
       v2axy_ 32 3 0 20 20 10 20 (mkState 2 inPlaceYReals) = some (0, s1) ∧
       v2axy_ 32 3 0 0 20 10 20 (mkState 2 inPlaceYReals) = some (0, s2) ∧
       s1.reals (20 + 1) = F32.ofNat 4 ∧ s2.reals (0 + 1) = F32.ofNat 2 ∧
       s1.reals (20 + 1) ≠ s2.reals (0 + 1)) ∧
    ((0 ≤ overflowState.ints 0 ∧ overflowState.ints 0 = integerMax 32) ∧
     ((-1 : Int) < 0 ∨ 0 + overflowState.ints 0 ≤ -1) ∧
     ((2147483648 : Int) + overflowState.ints 0 ≤ 0 ∨ 0 + overflowState.ints 0 ≤ 2147483648) ∧
     ¬ ∃ (fuel : Nat) (s1 : State F32),
        v2axy_ 32 fuel 0 0 (-1) 2147483648 0 overflowState = some (0, s1) ∧
        ∀ i : Int, 0 ≤ i → i < overflowState.ints 0 →
          s1.reals (0 + i) = overflowState.reals (-1) * overflowState.reals (2147483648 + i)
            + overflowState.reals (0 + i)) := by
  constructor
  · obtain ⟨s1, hrun1, hre1⟩ := v2axy_length_two 32 3 0 20 20 10 20 (mkState 2 inPlaceYReals)
      rfl (by decide) (by decide)
    obtain ⟨s2, hrun2, hre2⟩ := v2axy_length_two 32 3 0 0 20 10 20 (mkState 2 inPlaceYReals)
      rfl (by decide) (by decide)
    refine ⟨s1, s2, hrun1, hrun2, ?_, ?_, ?_⟩
    · rw [hre1]
      decide!
    · rw [hre2]
      decide!
    · rw [hre1, hre2]
      decide!
  · refine ⟨by decide, by decide, by decide, ?_⟩
    rintro ⟨fuel, s1, h, _⟩
    rw [v2axy_never_returns 32 0 0 (-1) 2147483648 0 overflowState (by decide)
      (le_refl _) fuel] at h
    cases h

/-- C6 (amended): with `a` a zero (`+0` or `-0`), for every length `p` with `0 ≤ p`
below the largest `integer` and vectors `x`, `y` disjoint from `w`, the call returns
`0` and afterwards every index `i` in `[0, p)` whose `x[i]` is finite (neither NaN nor
an infinity) has `w[i] = y[i]`, except that where `y[i]` is `-0` the stored value may be
`+0`.  The other elements of `x` may be NaN or infinite. -/
theorem v2axy_zero_scalar_copies_y (bits fuel : Nat) (p w a x y : Int)
    (s : State F32) (hp0 : 0 ≤ s.ints p) (hpmax : s.ints p < integerMax bits)
    (hfuel : (s.ints p).toNat < fuel)
    (ha : a < w ∨ w + s.ints p ≤ a)
    (hx : x + s.ints p ≤ w ∨ w + s.ints p ≤ x)
    (hy : y + s.ints p ≤ w ∨ w + s.ints p ≤ y)
    (haz : s.reals a = F32.zero ∨ s.reals a = F32.negZero) :
    ∃ s1 : State F32, v2axy_ bits fuel p w a x y s = some (0, s1) ∧
      ∀ i : Int, 0 ≤ i → i < s.ints p → (s.reals (x + i)).isFinite = true →
        (s1.reals (w + i) = s.reals (y + i) ∨
          (s.reals (y + i) = F32.negZero ∧ s1.reals (w + i) = F32.zero)) := by
  refine ⟨_, v2axy_run bits fuel p w a x y s hpmax hfuel, ?_⟩
  intro i h0 hi hf
  have h1 : axpyZeroBased (s.ints p).toNat w a x y s.reals (w + i)
      = s.reals a * s.reals (x + i) + s.reals (y + i) :=
    axpyZeroBased_elem _ w a x y s.reals
      (fun i2 j hj1 hj2 hi2 => ⟨by omega, by omega, by omega⟩) i h0 (by omega)
  show axpyZeroBased (s.ints p).toNat w a x y s.reals (w + i) = s.reals (y + i) ∨
    (s.reals (y + i) = F32.negZero ∧
      axpyZeroBased (s.ints p).toNat w a x y s.reals (w + i) = F32.zero)
  rw [h1]
  obtain ⟨sz, hsz⟩ : ∃ sz : Bool, s.reals a = F32.fin sz 0 0 := by
    rcases haz with h | h
    · exact ⟨false, h⟩
    · exact ⟨true, h⟩
  cases hxi : s.reals (x + i) with
  | nan => rw [hxi] at hf; simp [F32.isFinite] at hf
  | inf t => rw [hxi] at hf; simp [F32.isFinite] at hf
  | fin t e m =>
    rw [hsz, F32.zero_mul_fin]
    exact F32.signedZero_add _ _

/-- Witness for C6: `p = 2`, the scalar `+0` in cell `100`, `x = [+0, +infinity]` in the
cells `9, 10`, `y = [1.0, +0]` in the cells `20, 21`, `w` in the cells `0, 1`: the
statement speaks of the index `0`, whose `x[0]` is finite, although `x[1]` is infinite. -/
theorem v2axy_zero_scalar_copies_y_witness :
    ∃ s1 : State F32, v2axy_ 32 3 0 0 100 9 20 (mkState 2 infReals) = some (0, s1) ∧
      ∀ i : Int, 0 ≤ i → i < (mkState 2 infReals).ints 0 →
        ((mkState 2 infReals).reals (9 + i)).isFinite = true →
        (s1.reals (0 + i) = (mkState 2 infReals).reals (20 + i) ∨
          ((mkState 2 infReals).reals (20 + i) = F32.negZero ∧ s1.reals (0 + i) = F32.zero)) :=
  v2axy_zero_scalar_copies_y 32 3 0 0 100 9 20 (mkState 2 infReals) (by decide) (by decide)
    (by decide) (by decide) (by decide) (by decide) (Or.inl rfl)

/-- C6 (counterexample): `p = 1`, `a = +0`, `x = [+infinity]`, `y = [1.0]`, `w`
disjoint from both: the call returns with `w[0]` a NaN, which is not `y[0]`. -/
theorem v2axy_zero_scalar_times_infinity :
    (mkState 1 infReals).reals 100 = F32.zero ∧
    (mkState 1 infReals).reals 10 = F32.inf false ∧
    (mkState 1 infReals).reals 20 = F32.one ∧
    ∃ s1 : State F32, v2axy_ 32 2 0 0 100 10 20 (mkState 1 infReals) = some (0, s1) ∧
      s1.reals 0 = F32.nan ∧ s1.reals 0 ≠ (mkState 1 infReals).reals 20 := by
  obtain ⟨s1, hrun, hval, _⟩ := v2axy_length_one 32 2 0 0 100 10 20 (mkState 1 infReals)
    rfl (by decide) (by decide)
  have h3 : (mkState 1 infReals).reals 100 * (mkState 1 infReals).reals 10
      + (mkState 1 infReals).reals 20 = F32.nan := by decide
  rw [h3] at hval
  refine ⟨rfl, rfl, rfl, s1, hrun, hval, ?_⟩
  rw [hval]
  decide

/-- C7 (amended): with `a = 1.0`, for every length `p` with `0 ≤ p` below the largest
`integer` and vectors `x`, `y` disjoint from `w`, the call returns `0` and afterwards
`w[i] = x[i] + y[i]` for every `i` in `[0, p)`, on all element values. -/
theorem v2axy_unit_scalar_adds (bits fuel : Nat) (p w a x y : Int)
    (s : State F32) (hp0 : 0 ≤ s.ints p) (hpmax : s.ints p < integerMax bits)
    (hfuel : (s.ints p).toNat < fuel)
    (ha : a < w ∨ w + s.ints p ≤ a)
    (hx : x + s.ints p ≤ w ∨ w + s.ints p ≤ x)
    (hy : y + s.ints p ≤ w ∨ w + s.ints p ≤ y)
    (ha1 : s.reals a = F32.one) :
    ∃ s1 : State F32, v2axy_ bits fuel p w a x y s = some (0, s1) ∧
      ∀ i : Int, 0 ≤ i → i < s.ints p →
        s1.reals (w + i) = s.reals (x + i) + s.reals (y + i) := by
  refine ⟨_, v2axy_run bits fuel p w a x y s hpmax hfuel, ?_⟩
  intro i h0 hi
  have h1 : axpyZeroBased (s.ints p).toNat w a x y s.reals (w + i)
      = s.reals a * s.reals (x + i) + s.reals (y + i) :=
    axpyZeroBased_elem _ w a x y s.reals
      (fun i2 j hj1 hj2 hi2 => ⟨by omega, by omega, by omega⟩) i h0 (by omega)
  show axpyZeroBased (s.ints p).toNat w a x y s.reals (w + i)
    = s.reals (x + i) + s.reals (y + i)
  rw [h1, ha1, F32.one_mul]

/-- Witness for C7: every cell holds `1.0`, `p = 3`. -/
theorem v2axy_unit_scalar_adds_witness :
    ∃ s1 : State F32, v2axy_ 32 4 0 0 100 10 20 (mkState 3 oneReals) = some (0, s1) ∧
      ∀ i : Int, 0 ≤ i → i < (mkState 3 oneReals).ints 0 →
        s1.reals (0 + i) =
          (mkState 3 oneReals).reals (10 + i) + (mkState 3 oneReals).reals (20 + i) :=
  v2axy_unit_scalar_adds 32 4 0 0 100 10 20 (mkState 3 oneReals) (by decide) (by decide)
    (by decide) (by decide) (by decide) (by decide) rfl

/-- C7 (counterexample), two inputs that satisfy the claim's conditions.
First, `p = 2`, `x = [1, 1]`, `y = [1, 0]`, `w` disjoint from both, and the scalar
passed as a pointer to `w[0]`, which holds `1.0`: the first trip overwrites the scalar
with `2.0`, so the call leaves `w[1] = 2.0`, not `x[1] + y[1] = 1.0`.
Second, a 32-bit `integer`, the length `2147483647` and `a = 1.0`: the call returns for
no amount of fuel, so there is no state after the call in which `w[i] = x[i] + y[i]`. -/
theorem v2axy_unit_scalar_fails :
    ((mkState 2 unitAliasReals).reals 0 = F32.one ∧
     ∃ s1 : State F32, v2axy_ 32 3 0 0 0 10 20 (mkState 2 unitAliasReals) = some (0, s1) ∧
       s1.reals (0 + 1) = F32.ofNat 2 ∧
       (mkState 2 unitAliasReals).reals (10 + 1) + (mkState 2 unitAliasReals).reals (20 + 1)
         = F32.ofNat 1 ∧
       s1.reals (0 + 1) ≠
         (mkState 2 unitAliasReals).reals (10 + 1) + (mkState 2 unitAliasReals).reals (20 + 1)) ∧
    ((0 ≤ (mkState (integerMax 32) oneReals).ints 0 ∧
      (mkState (integerMax 32) oneReals).ints 0 = integerMax 32) ∧
     (mkState (integerMax 32) oneReals).reals (-1) = F32.one ∧
     ¬ ∃ (fuel : Nat) (s1 : State F32),
        v2axy_ 32 fuel 0 0 (-1) 2147483648 4294967296 (mkState (integerMax 32) oneReals)
          = some (0, s1) ∧
        ∀ i : Int, 0 ≤ i → i < (mkState (integerMax 32) oneReals).ints 0 →
          s1.reals (0 + i) = (mkState (integerMax 32) oneReals).reals (2147483648 + i)
            + (mkState (integerMax 32) oneReals).reals (4294967296 + i)) := by
  constructor
  · obtain ⟨s1, hrun, hre⟩ := v2axy_length_two 32 3 0 0 0 10 20 (mkState 2 unitAliasReals)
      rfl (by decide) (by decide)
    refine ⟨by decide, s1, hrun, ?_, by decide!, ?_⟩
    · rw [hre]
      decide!
    · rw [hre]
      decide!
  · refine ⟨by decide, rfl, ?_⟩
    rintro ⟨fuel, s1, h, _⟩
    rw [v2axy_never_returns 32 0 0 (-1) 2147483648 4294967296
      (mkState (integerMax 32) oneReals) (by decide) (le_refl _) fuel] at h
    cases h

/-- C8 (amended): for every length `p` below the largest `integer` (negative lengths
included), when the cells `w[0..p)` contain neither the scalar `a` nor any of the `nx`
elements of `x` or the `ny` elements of `y`, the call returns `0` and mutates `w[0..p)`
only: the `integer` heap, hence the length `p`, the scalar `a`, every element of `x`
and of `y`, and every other `real` cell outside `w[0..p)` hold their initial values. -/
theorem v2axy_mutates_w_only {R : Type} [Mul R] [Add R] (bits fuel : Nat)
    (p w a x y : Int) (nx ny : Nat) (s : State R)
    (hpmax : s.ints p < integerMax bits) (hfuel : (s.ints p).toNat < fuel)
    (ha : a < w ∨ w + (s.ints p).toNat ≤ a)
    (hx : x + nx ≤ w ∨ w + (s.ints p).toNat ≤ x)
    (hy : y + ny ≤ w ∨ w + (s.ints p).toNat ≤ y) :
    ∃ s1 : State R, v2axy_ bits fuel p w a x y s = some (0, s1) ∧
      s1.ints = s.ints ∧ s1.ints p = s.ints p ∧ s1.reals a = s.reals a ∧
      (∀ i : Int, 0 ≤ i → i < nx → s1.reals (x + i) = s.reals (x + i)) ∧
      (∀ i : Int, 0 ≤ i → i < ny → s1.reals (y + i) = s.reals (y + i)) ∧
      (∀ c : Int, c < w ∨ w + (s.ints p).toNat ≤ c → s1.reals c = s.reals c) := by
  refine ⟨_, v2axy_run bits fuel p w a x y s hpmax hfuel, rfl, rfl, ?_, ?_, ?_, ?_⟩
  · exact axpyZeroBased_outside _ w a x y s.reals a ha
  · intro i h0 hi
    exact axpyZeroBased_outside _ w a x y s.reals (x + i) (by omega)
  · intro i h0 hi
    exact axpyZeroBased_outside _ w a x y s.reals (y + i) (by omega)
  · intro c hc
    exact axpyZeroBased_outside _ w a x y s.reals c hc

/-- Witness for C8: the example state, `p = 3`, `x` and `y` of three elements. -/
theorem v2axy_mutates_w_only_witness :
    ∃ s1 : State F32, v2axy_ 32 4 0 0 100 10 20 exampleState = some (0, s1) ∧
      s1.ints = exampleState.ints ∧ s1.ints 0 = exampleState.ints 0 ∧
      s1.reals 100 = exampleState.reals 100 ∧
      (∀ i : Int, 0 ≤ i → i < (3 : Nat) → s1.reals (10 + i) = exampleState.reals (10 + i)) ∧
      (∀ i : Int, 0 ≤ i → i < (3 : Nat) → s1.reals (20 + i) = exampleState.reals (20 + i)) ∧
      (∀ c : Int, c < 0 ∨ 0 + (exampleState.ints 0).toNat ≤ c →
        s1.reals c = exampleState.reals c) :=
  v2axy_mutates_w_only 32 4 0 0 100 10 20 3 3 exampleState (by decide) (by decide)
    (by decide) (by decide) (by decide)

/-- C8 (counterexample): `p = 1`, `w` (cell `0`) disjoint from `x` (cell `10`) and `y`
(cell `20`), and the scalar `a` passed as a pointer to cell `0`: the call returns and
the contents of `a` have changed from `2.0` to `3.0`. -/
theorem v2axy_scalar_inside_w_is_overwritten :
    ((10 : Int) + (mkState 1 aliasReals).ints 0 ≤ 0 ∨ 0 + (mkState 1 aliasReals).ints 0 ≤ 10) ∧
    ((20 : Int) + (mkState 1 aliasReals).ints 0 ≤ 0 ∨ 0 + (mkState 1 aliasReals).ints 0 ≤ 20) ∧
    ∃ s1 : State F32, v2axy_ 32 2 0 0 0 10 20 (mkState 1 aliasReals) = some (0, s1) ∧
      (mkState 1 aliasReals).reals 0 = F32.ofNat 2 ∧ s1.reals 0 = F32.ofNat 3 ∧
      s1.reals 0 ≠ (mkState 1 aliasReals).reals 0 := by
  obtain ⟨s1, hrun, hval, _⟩ := v2axy_length_one 32 2 0 0 0 10 20 (mkState 1 aliasReals)
    rfl (by decide) (by decide)
  have h3 : (mkState 1 aliasReals).reals 0 * (mkState 1 aliasReals).reals 10
      + (mkState 1 aliasReals).reals 20 = F32.ofNat 3 := by decide!
  rw [h3] at hval
  refine ⟨by decide, by decide, s1, hrun, by decide!, hval, ?_⟩
  rw [hval]
  decide!

/-- C10 (amended): for every non-negative length `p` below the largest `integer`, the
loop terminates (the call returns `0` once the fuel exceeds `p`) and is a single forward
pass: `p` tests of the loop condition do not suffice, and the cells written are, in
order, `w[0], w[1], ..., w[p-1]`, so there are exactly `p` trips, the `k`-th of them
writes the zero-based index `k-1`, no index is written twice and no other cell is
written. -/
theorem v2axy_single_forward_pass {R : Type} [Mul R] [Add R] (bits fuel : Nat)
    (p w a x y : Int) (s : State R) (hp0 : 0 ≤ s.ints p)
    (hpmax : s.ints p < integerMax bits) (hfuel : (s.ints p).toNat < fuel) :
    ∃ s1 : State R, v2axy_ bits fuel p w a x y s = some (0, s1) ∧
      s1.log = s.log ++ cellsAscending w (s.ints p).toNat ∧
      ((cellsAscending w (s.ints p).toNat).length : Int) = s.ints p ∧
      (∀ k : Nat, k < (s.ints p).toNat →
        (cellsAscending w (s.ints p).toNat)[k]? = some (w + (k : Int))) ∧
      (cellsAscending w (s.ints p).toNat).Nodup ∧
      (∀ c : Int, c < w ∨ w + s.ints p ≤ c → s1.reals c = s.reals c) ∧
      (∀ f : Nat, f ≤ (s.ints p).toNat → v2axy_ bits f p w a x y s = none) := by
  refine ⟨_, v2axy_run bits fuel p w a x y s hpmax hfuel, rfl, ?_, ?_, ?_, ?_,
    fun f hf => v2axy_out_of_fuel bits f p w a x y s hp0 hpmax hf⟩
  · rw [cellsAscending_length]
    omega
  · intro k hk
    exact cellsAscending_get w _ k hk
  · unfold cellsAscending
    refine List.Nodup.map ?_ (List.nodup_range _)
    intro i j hij
    simpa using hij
  · intro c hc
    exact axpyZeroBased_outside _ w a x y s.reals c (by omega)

/-- Witness for C10: the example state, `p = 3`. -/
theorem v2axy_single_forward_pass_witness :
    ∃ s1 : State F32, v2axy_ 32 4 0 0 100 10 20 exampleState = some (0, s1) ∧
      s1.log = exampleState.log ++ cellsAscending 0 (exampleState.ints 0).toNat ∧
      ((cellsAscending 0 (exampleState.ints 0).toNat).length : Int) = exampleState.ints 0 ∧
      (∀ k : Nat, k < (exampleState.ints 0).toNat →
        (cellsAscending 0 (exampleState.ints 0).toNat)[k]? = some (0 + (k : Int))) ∧
      (cellsAscending 0 (exampleState.ints 0).toNat).Nodup ∧
      (∀ c : Int, c < 0 ∨ 0 + exampleState.ints 0 ≤ c →
        s1.reals c = exampleState.reals c) ∧
      (∀ f : Nat, f ≤ (exampleState.ints 0).toNat →
        v2axy_ 32 f 0 0 100 10 20 exampleState = none) :=
  v2axy_single_forward_pass 32 4 0 0 100 10 20 exampleState (by decide) (by decide)
    (by decide)

/-- C10 (counterexample): with a 32-bit `integer` and `p` its largest value,
`2147483647`, the exit test `i__ <= i__1` could only fail at `i__ = p + 1`, which the
type does not hold.  The increment of `i__ = 2147483647` overflows (undefined in C, here
wrapping to `-2147483648`), the test holds for every value of `i__`, and the call
returns for no amount of fuel; after `p + 1` trips there have been `p + 1` writes, the
last of them to the cell of the zero-based index `-2147483649` of `w`.  The call
returns for no fuel at the largest value of every width of at least two bits, and also
when the increment leaves any other value of the type in `i__`: no value of the type
exceeds `p`. -/
theorem v2axy_loop_never_left_at_largest_length :
    overflowState.ints 0 = integerMax 32 ∧ integerMax 32 = 2147483647 ∧
    integerMin 32 = -2147483648 ∧ wrapInteger 32 (integerMax 32 + 1) = integerMin 32 ∧
    (∀ fuel : Nat, v2axy_ 32 fuel 0 0 100 10 20 overflowState = none) ∧
    (v2axy_after 32 (((integerMax 32).toNat - 1) + 2) 0 0 100 10 20 overflowState).log.length
      = overflowState.log.length + ((integerMax 32).toNat + 1) ∧
    (v2axy_after 32 (((integerMax 32).toNat - 1) + 2) 0 0 100 10 20 overflowState).log.getLast?
      = some (0 - 1 + integerMin 32) ∧
    (∀ (bits : Nat) (p w a x y : Int) (s : State F32), 2 ≤ bits →
      s.ints p = integerMax bits →
      wrapInteger bits (integerMax bits + 1) = integerMin bits ∧
      ∀ fuel : Nat, v2axy_ bits fuel p w a x y s = none) ∧
    (∀ (bits : Nat) (next : Int → Int) (p w a x y : Int) (s : State F32), 2 ≤ bits →
      (∀ v : Int, next v ≤ integerMax bits) → s.ints p = integerMax bits →
      ∀ fuel : Nat, v2axy_with next fuel p w a x y s = none) := by
  have h := loopAfter_past_integerMax 32 (0 - 1) 100 (10 - 1) (20 - 1)
    (enter overflowState) (by decide) rfl
  refine ⟨by decide, by decide, by decide, by decide, ?_, h.1, h.2, ?_, ?_⟩
  · intro fuel
    exact v2axy_never_returns 32 0 0 100 10 20 overflowState (by decide) (le_refl _) fuel
  · intro bits p w a x y s hb hp
    exact ⟨wrapInteger_max_succ bits (by omega),
      fun fuel => v2axy_never_returns bits p w a x y s hb (le_of_eq hp.symm) fuel⟩
  · intro bits next p w a x y s hb hnext hp fuel
    exact v2axy_with_never_returns bits next p w a x y s hb hnext hp fuel

/-- C11 (amended): for every length `p` with `0 ≤ p` below the largest `integer`, a
scalar `a` stored outside `w[0..p)`, and each of `x`, `y` either exactly `w` or disjoint
from `w[0..p)` (so also `w = x = y`), the call returns `0` and its final `real` heap is
the heap obtained by running the body `w[i] = a*x[i] + y[i]` over the indices
`0, ..., p-1` in any order: for every permutation of the indices, in particular the
descending one, and for the ascending one. -/
theorem v2axy_order_independent {R : Type} [Mul R] [Add R] (bits fuel : Nat)
    (p w a x y : Int) (s : State R) (order : List Int)
    (hp0 : 0 ≤ s.ints p) (hpmax : s.ints p < integerMax bits)
    (hfuel : (s.ints p).toNat < fuel)
    (ha : a < w ∨ w + s.ints p ≤ a)
    (hx : x = w ∨ x + s.ints p ≤ w ∨ w + s.ints p ≤ x)
    (hy : y = w ∨ y + s.ints p ≤ w ∨ w + s.ints p ≤ y)
    (hperm : order.Perm (indexList (s.ints p).toNat)) :
    ∃ s1 : State R, v2axy_ bits fuel p w a x y s = some (0, s1) ∧
      s1.reals = passInOrder w a x y (indexList (s.ints p).toNat) s.reals ∧
      s1.reals = passInOrder w a x y (indexList (s.ints p).toNat).reverse s.reals ∧
      s1.reals = passInOrder w a x y order s.reals := by
  have hn : ((s.ints p).toNat : Int) = s.ints p := by omega
  obtain ⟨h1, h2⟩ := sameBase_or_disjoint w a x y (s.ints p).toNat
    (by omega) (by omega) (by omega)
  have hasc : axpyZeroBased (s.ints p).toNat w a x y s.reals
      = passInOrder w a x y (indexList (s.ints p).toNat) s.reals :=
    axpyZeroBased_eq_passInOrder _ w a x y s.reals
  have hnd := indexList_nodup (s.ints p).toNat
  have hin : ∀ i ∈ indexList (s.ints p).toNat, 0 ≤ i ∧ i < ((s.ints p).toNat : Nat) :=
    fun i hi => (mem_indexList _ i).mp hi
  refine ⟨_, v2axy_run bits fuel p w a x y s hpmax hfuel, hasc, ?_, ?_⟩
  · show axpyZeroBased (s.ints p).toNat w a x y s.reals = _
    rw [hasc]
    exact passInOrder_order_irrelevant w a x y _ h1 h2 _ _ s.reals hnd
      (List.nodup_reverse.mpr hnd) hin (fun i => (List.mem_reverse).symm)
  · show axpyZeroBased (s.ints p).toNat w a x y s.reals = _
    rw [hasc]
    exact passInOrder_order_irrelevant w a x y _ h1 h2 _ _ s.reals hnd
      (hperm.nodup_iff.mpr hnd) hin (fun i => (hperm.mem_iff).symm)

/-- Witness for C11: the example state used in place on `x` (`w = x`, cells `10 .. 12`),
with the order `1, 2, 0`. -/
theorem v2axy_order_independent_witness :
    ∃ s1 : State F32, v2axy_ 32 4 0 10 100 10 20 exampleState = some (0, s1) ∧
      s1.reals = passInOrder 10 100 10 20 (indexList (exampleState.ints 0).toNat)
        exampleState.reals ∧
      s1.reals = passInOrder 10 100 10 20 (indexList (exampleState.ints 0).toNat).reverse
        exampleState.reals ∧
      s1.reals = passInOrder 10 100 10 20 [1, 2, 0] exampleState.reals :=
  v2axy_order_independent 32 4 0 10 100 10 20 exampleState [1, 2, 0] (by decide) (by decide)
    (by decide) (by decide) (by decide) (by decide) (by decide)

/-- C11 (counterexample): `p = 2`, `x = [1, 1]`, `y = [1, 0]`, `w` disjoint from both,
and the scalar passed as a pointer to `w[0]`, which holds `2.0`.  The source's ascending
order leaves `w[1] = 3.0` (the first trip has overwritten the scalar), the descending
order `1, 0` leaves `w[1] = 2.0`. -/
theorem v2axy_order_matters_with_scalar_inside_w :
    (((10 : Int) + (mkState 2 aliasReals).ints 0 ≤ 0 ∨ 0 + (mkState 2 aliasReals).ints 0 ≤ 10) ∧
     ((20 : Int) + (mkState 2 aliasReals).ints 0 ≤ 0 ∨ 0 + (mkState 2 aliasReals).ints 0 ≤ 20)) ∧
    (indexList 2).reverse = [1, 0] ∧
    ∃ s1 : State F32, v2axy_ 32 3 0 0 0 10 20 (mkState 2 aliasReals) = some (0, s1) ∧
      s1.reals 1 = F32.ofNat 3 ∧
      passInOrder 0 0 10 20 [1, 0] (mkState 2 aliasReals).reals 1 = F32.ofNat 2 ∧
      s1.reals ≠ passInOrder 0 0 10 20 (indexList 2).reverse (mkState 2 aliasReals).reals := by
  obtain ⟨s1, hrun, hre⟩ := v2axy_length_two 32 3 0 0 0 10 20 (mkState 2 aliasReals)
    rfl (by decide) (by decide)
  have hrev : (indexList 2).reverse = [1, 0] := by decide
  have h1 : s1.reals 1 = F32.ofNat 3 := by
    rw [hre]
    decide!
  have h2 : passInOrder 0 0 10 20 [1, 0] (mkState 2 aliasReals).reals 1 = F32.ofNat 2 := by
    decide!
  refine ⟨⟨by decide, by decide⟩, hrev, s1, hrun, h1, h2, ?_⟩
  intro h
  rw [hrev] at h
  have h3 : s1.reals 1 = passInOrder 0 0 10 20 [1, 0] (mkState 2 aliasReals).reals 1 := by
    rw [h]
  rw [h1, h2] at h3
  revert h3
  decide!

/-- C12: two calls with the same arguments on states with the same `integer` and
`real` heaps, whatever the prior values of the static `i__`, have the same outcome for
every amount of fuel: both are still running, or both return the same value and the
same `real` heap, so the same `w`.  The outcome is that of the subroutine with an
ordinary local counter; replacing the prior `i__` by any value changes nothing; and for
a length below the largest `integer` both calls do return, with the value `0`. -/
theorem v2axy_static_counter_irrelevant {R : Type} [Mul R] [Add R] (bits fuel : Nat)
    (p w a x y : Int) (s t : State R) (hints : s.ints = t.ints) (hreals : s.reals = t.reals) :
    (v2axy_ bits fuel p w a x y s).map (fun r => (r.1, r.2.reals))
      = (v2axy_ bits fuel p w a x y t).map (fun r => (r.1, r.2.reals)) ∧
    (v2axy_ bits fuel p w a x y s).map (fun r => (r.1, r.2.reals))
      = v2axy_local bits fuel p w a x y s.ints s.reals ∧
    (∀ i0 : Int, v2axy_ bits fuel p w a x y { s with i__ := i0 }
      = v2axy_ bits fuel p w a x y s) ∧
    (s.ints p < integerMax bits → (s.ints p).toNat < fuel →
      ∃ s1 t1 : State R, v2axy_ bits fuel p w a x y s = some (0, s1) ∧
        v2axy_ bits fuel p w a x y t = some (0, t1) ∧ s1.reals = t1.reals) := by
  refine ⟨?_, v2axy_eq_local bits fuel p w a x y s,
    fun i0 => v2axy_prior_counter bits fuel p w a x y s i0, ?_⟩
  · rw [v2axy_eq_local, v2axy_eq_local, hints, hreals]
  · intro hmax hf
    have hp : s.ints p = t.ints p := by rw [hints]
    refine ⟨_, _, v2axy_run bits fuel p w a x y s hmax hf,
      v2axy_run bits fuel p w a x y t (by omega) (by omega), ?_⟩
    show axpyZeroBased (s.ints p).toNat w a x y s.reals
      = axpyZeroBased (t.ints p).toNat w a x y t.reals
    rw [hp, hreals]

/-- Witness for C12: the example state with `i__ = 0` and with `i__ = 7`. -/
theorem v2axy_static_counter_irrelevant_witness :
    (v2axy_ 32 4 0 0 100 10 20 exampleState).map (fun r => (r.1, r.2.reals))
      = (v2axy_ 32 4 0 0 100 10 20 { exampleState with i__ := 7 }).map
          (fun r => (r.1, r.2.reals)) ∧
    (v2axy_ 32 4 0 0 100 10 20 exampleState).map (fun r => (r.1, r.2.reals))
      = v2axy_local 32 4 0 0 100 10 20 exampleState.ints exampleState.reals ∧
    (∀ i0 : Int, v2axy_ 32 4 0 0 100 10 20 { exampleState with i__ := i0 }
      = v2axy_ 32 4 0 0 100 10 20 exampleState) ∧
    (exampleState.ints 0 < integerMax 32 → (exampleState.ints 0).toNat < 4 →
      ∃ s1 t1 : State F32, v2axy_ 32 4 0 0 100 10 20 exampleState = some (0, s1) ∧
        v2axy_ 32 4 0 0 100 10 20 { exampleState with i__ := 7 } = some (0, t1) ∧
        s1.reals = t1.reals) :=
  v2axy_static_counter_irrelevant 32 4 0 0 100 10 20 exampleState
    { exampleState with i__ := 7 } rfl rfl

/-- C13: for every negative length `p` the call returns `0` as soon as it has fuel for
one test of the loop condition; the test fails at once, so there is no trip around the
loop (the state after any number of allowed trips is the state at entry), no `real`
cell is read, and the `real` heap, hence `w`, the `integer` heap and the write log are
as before the call. -/
theorem v2axy_negative_length {R : Type} [Mul R] [Add R] (bits fuel : Nat)
    (p w a x y : Int) (s : State R) (hp : s.ints p < 0) (hfuel : 0 < fuel) :
    v2axy_ bits fuel p w a x y s = some (0, enter s) ∧
    (∀ n : Nat, v2axy_after bits n p w a x y s = enter s) ∧
    (∀ n : Nat, v2axy_reads bits n p w a x y s = []) ∧
    (enter s).reals = s.reals ∧ (enter s).ints = s.ints ∧ (enter s).log = s.log := by
  have hlt : s.ints p < (enter s).i__ := by
    show s.ints p < 1
    omega
  have hstep := loopStep_exit bits (s.ints p) (w - 1) a (x - 1) (y - 1) (enter s) hlt
  obtain ⟨f, rfl⟩ : ∃ f, fuel = f + 1 := ⟨fuel - 1, by omega⟩
  refine ⟨?_, ?_, ?_, rfl, rfl, rfl⟩
  · apply v2axy_eq_some
    exact loop_exit bits _ _ _ _ _ f (enter s) hlt
  · intro n
    exact loopAfter_exit bits _ _ _ _ _ n (enter s) hstep
  · intro n
    exact loopReads_exit bits _ _ _ _ _ n (enter s) hstep

/-- Witness for C13: length `-5` on the example heap. -/
theorem v2axy_negative_length_witness :
    v2axy_ 32 1 0 0 100 10 20 (mkState (-5) exampleReals)
      = some (0, enter (mkState (-5) exampleReals)) ∧
    (∀ n : Nat, v2axy_after 32 n 0 0 100 10 20 (mkState (-5) exampleReals)
      = enter (mkState (-5) exampleReals)) ∧
    (∀ n : Nat, v2axy_reads 32 n 0 0 100 10 20 (mkState (-5) exampleReals) = []) ∧
    (enter (mkState (-5) exampleReals)).reals = (mkState (-5) exampleReals).reals ∧
    (enter (mkState (-5) exampleReals)).ints = (mkState (-5) exampleReals).ints ∧
    (enter (mkState (-5) exampleReals)).log = (mkState (-5) exampleReals).log :=
  v2axy_negative_length 32 1 0 0 100 10 20 (mkState (-5) exampleReals) (by decide)
    (by decide)

/-- C14: two calls with the same arguments on two states that agree on the length
`p ≥ 0`, on the scalar `a` and on `x[i]`, `y[i]` for `i` in `[0, p)`, with `w[0..p)`
disjoint from `x[0..p)` and `y[0..p)`: whenever both return, they leave identical
`w[0..p)`, whatever the two states hold in `w` and elsewhere; one returns exactly when
the other does; and for `p` below the largest `integer` both return. -/
theorem v2axy_depends_on_inputs_only {R : Type} [Mul R] [Add R] (bits : Nat)
    (p w a x y : Int) (s t : State R)
    (hpeq : s.ints p = t.ints p) (hp0 : 0 ≤ s.ints p)
    (hx : x + s.ints p ≤ w ∨ w + s.ints p ≤ x)
    (hy : y + s.ints p ≤ w ∨ w + s.ints p ≤ y)
    (haeq : s.reals a = t.reals a)
    (hxeq : ∀ i : Int, 0 ≤ i → i < s.ints p → s.reals (x + i) = t.reals (x + i))
    (hyeq : ∀ i : Int, 0 ≤ i → i < s.ints p → s.reals (y + i) = t.reals (y + i)) :
    (∀ (fuel : Nat) (r1 r2 : Int × State R), v2axy_ bits fuel p w a x y s = some r1 →
      v2axy_ bits fuel p w a x y t = some r2 →
      r1.1 = r2.1 ∧ ∀ i : Int, 0 ≤ i → i < s.ints p →
        r1.2.reals (w + i) = r2.2.reals (w + i)) ∧
    (∀ fuel : Nat, (v2axy_ bits fuel p w a x y s).isSome
      = (v2axy_ bits fuel p w a x y t).isSome) ∧
    (s.ints p < integerMax bits → ∀ fuel : Nat, (s.ints p).toNat < fuel →
      ∃ s1 t1 : State R, v2axy_ bits fuel p w a x y s = some (0, s1) ∧
        v2axy_ bits fuel p w a x y t = some (0, t1) ∧
        ∀ i : Int, 0 ≤ i → i < s.ints p → s1.reals (w + i) = t1.reals (w + i)) := by
  have hagree : ∀ i : Int, 0 ≤ i → i < s.ints p →
      axpyZeroBased (s.ints p).toNat w a x y s.reals (w + i)
        = axpyZeroBased (t.ints p).toNat w a x y t.reals (w + i) := by
    intro i h0 hi
    rw [← hpeq]
    unfold axpyZeroBased
    exact forwardPass_agree w a x y (s.ints p).toNat 0 s.reals t.reals haeq
      (fun i2 h1 h2 => ⟨hxeq i2 h1 (by omega), hyeq i2 h1 (by omega)⟩)
      (fun i2 j hj1 hj2 hi2 => ⟨by omega, by omega⟩) i h0 (by omega)
  have hboth : s.ints p < integerMax bits → ∀ fuel : Nat, (s.ints p).toNat < fuel →
      ∃ s1 t1 : State R, v2axy_ bits fuel p w a x y s = some (0, s1) ∧
        v2axy_ bits fuel p w a x y t = some (0, t1) ∧
        ∀ i : Int, 0 ≤ i → i < s.ints p → s1.reals (w + i) = t1.reals (w + i) := by
    intro hmax fuel hf
    exact ⟨_, _, v2axy_run bits fuel p w a x y s hmax hf,
      v2axy_run bits fuel p w a x y t (by omega) (by omega), hagree⟩
  refine ⟨?_, ?_, hboth⟩
  · intro fuel r1 r2 h1 h2
    have i1 := v2axy_some_inv bits fuel p w a x y s r1 h1
    have i2 := v2axy_some_inv bits fuel p w a x y t r2 h2
    refine ⟨by rw [i1.1, i2.1], ?_⟩
    intro i h0 hi
    by_cases hmax : s.ints p < integerMax bits
    · by_cases hf : (s.ints p).toNat < fuel
      · obtain ⟨s1, t1, e1, e2, hag⟩ := hboth hmax fuel hf
        rw [e1] at h1
        rw [e2] at h2
        cases h1
        cases h2
        exact hag i h0 hi
      · rw [v2axy_out_of_fuel bits fuel p w a x y s hp0 hmax (by omega)] at h1
        cases h1
    · have hnone := loop_diverges_from bits (s.ints p) (w - 1) a (x - 1) (y - 1)
        (by omega) fuel (enter s) (by show (1 : Int) ≤ s.ints p; omega)
      rw [hnone] at i1
      cases i1.2
  · intro fuel
    unfold v2axy_
    have h := loop_isSome_congr bits (s.ints p) (w - 1) a (x - 1) (y - 1) fuel
      (enter s) (enter t) rfl
    rw [← hpeq]
    cases h1 : loop bits (s.ints p) (w - 1) a (x - 1) (y - 1) fuel (enter s) <;>
      cases h2 : loop bits (s.ints p) (w - 1) a (x - 1) (y - 1) fuel (enter t) <;>
      simp_all

/-- Witness for C14: the example state against a state with the same length, scalar,
`x` and `y` but `1.0` in every other cell, the cells of `w` included. -/
theorem v2axy_depends_on_inputs_only_witness :
    (∀ (fuel : Nat) (r1 r2 : Int × State F32),
      v2axy_ 32 fuel 0 0 100 10 20 exampleState = some r1 →
      v2axy_ 32 fuel 0 0 100 10 20 otherState = some r2 →
      r1.1 = r2.1 ∧ ∀ i : Int, 0 ≤ i → i < exampleState.ints 0 →
        r1.2.reals (0 + i) = r2.2.reals (0 + i)) ∧
    (∀ fuel : Nat, (v2axy_ 32 fuel 0 0 100 10 20 exampleState).isSome
      = (v2axy_ 32 fuel 0 0 100 10 20 otherState).isSome) ∧
    (exampleState.ints 0 < integerMax 32 → ∀ fuel : Nat, (exampleState.ints 0).toNat < fuel →
      ∃ s1 t1 : State F32, v2axy_ 32 fuel 0 0 100 10 20 exampleState = some (0, s1) ∧
        v2axy_ 32 fuel 0 0 100 10 20 otherState = some (0, t1) ∧
        ∀ i : Int, 0 ≤ i → i < exampleState.ints 0 → s1.reals (0 + i) = t1.reals (0 + i)) :=
  v2axy_depends_on_inputs_only 32 0 0 100 10 20 exampleState otherState rfl (by decide)
    (by decide) (by decide) (by decide!)
    (fun i h0 hi => by
      have hi3 : i < 3 := hi
      interval_cases i <;> decide!)
    (fun i h0 hi => by
      have hi3 : i < 3 := hi
      interval_cases i <;> decide!)

/-- C15: `p = 2`, `a = 2.0`, `x = [1, 1]` in the cells `10, 11`, `y = [1, 0]` in the
cells `20, 21`, and `w` at cell `11`, so that `w[i]` is the cell of `x[i+1]`.  The call
returns with `w[1] = 6.0`, which differs from `a*x_old[1] + y[1] = 2.0`: the second trip
read `x[1]` after the first trip had stored `w[0] = 3.0` there, so
`w[1] = a*w[0] + y[1]`. -/
theorem v2axy_shifted_overlap :
    (∀ i : Int, (11 : Int) + i = 10 + (i + 1)) ∧
    ((100 : Int) < 11 ∨ 11 + (mkState 2 shiftReals).ints 0 ≤ 100) ∧
    ((20 : Int) + (mkState 2 shiftReals).ints 0 ≤ 11 ∨ 11 + (mkState 2 shiftReals).ints 0 ≤ 20) ∧
    ∃ s1 : State F32, v2axy_ 32 3 0 11 100 10 20 (mkState 2 shiftReals) = some (0, s1) ∧
      s1.reals (11 + 0) = F32.ofNat 3 ∧ s1.reals (11 + 1) = F32.ofNat 6 ∧
      (mkState 2 shiftReals).reals 100 * (mkState 2 shiftReals).reals (10 + 1)
        + (mkState 2 shiftReals).reals (20 + 1) = F32.ofNat 2 ∧
      s1.reals (11 + 1) ≠ (mkState 2 shiftReals).reals 100 * (mkState 2 shiftReals).reals (10 + 1)
        + (mkState 2 shiftReals).reals (20 + 1) ∧
      s1.reals (11 + 1) = (mkState 2 shiftReals).reals 100 * s1.reals (11 + 0)
        + (mkState 2 shiftReals).reals (20 + 1) := by
  obtain ⟨s1, hrun, hre⟩ := v2axy_length_two 32 3 0 11 100 10 20 (mkState 2 shiftReals)
    rfl (by decide) (by decide)
  refine ⟨fun i => by ring, by decide, by decide, s1, hrun, ?_, ?_, by decide!, ?_, ?_⟩
  · rw [hre]
    decide!
  · rw [hre]
    decide!
  · rw [hre]
    decide!
  · rw [hre]
    decide!

end V2axy
